import Mathlib

/-!
A shallow embedding of `shell.c`.

The interpreter reads a line, normalises whitespace, splits the line into
command groups on the character `;`, tokenises every group on tabs and feeds
the tokens to `parse_arguments`, the state machine behind `;`, `&&` and `||`.

Conventions of the embedding.

* A C string is the list of its characters before the terminating NUL
  (`CStr`).  A byte read from the input is the `Char` with the same code.
* A `char **` array is a list of optional strings, `none` standing for the
  NULL pointer.  Allocation is assumed to succeed, and the environment
  variables `PWD` and `PATH` are assumed to be set.
* The operating system is an oracle `Env`: `stat` succeeding on a path and the
  outcome of running a child process are functions of their arguments.
* Every system call that matters is recorded in a trace of `Event`s, in the
  order in which the program issues them.
-/

namespace Shell

/-- The contents of a NUL-terminated C string. -/
abbrev CStr := List Char

/-! ## Globals -/

def STDIN : Nat := 0
def STDOUT : Nat := 1
def STDERR : Nat := 2

/-! ## The operating system seen by the program -/

/-- What `fork`/`waitpid` report for one child. -/
inductive ChildOutcome where
  /-- The child ran and terminated normally; `WEXITSTATUS` is `code % 256`. -/
  | exited (code : Nat)
  /-- The child did not terminate normally (`WIFEXITED` is false). -/
  | abnormal
  /-- The call `fork()` returned a negative value. -/
  | forkFailed
  deriving DecidableEq, Repr

/-- The environment of one input line. -/
structure Env where
  /-- The value of `getenv("PWD")`. -/
  PWD : CStr
  /-- Whether `stat(path, &statbuf)` returns `0`. -/
  fileExists : CStr → Bool
  /-- The fate of the child created for `execve(path, argv, environ)`. -/
  child : CStr → List CStr → ChildOutcome

/-- The system calls recorded by the embedding. -/
inductive Event where
  /-- A call `stat(path, &statbuf)`. -/
  | stat (path : CStr)
  /-- A call `write(fd, text, strlen(text))`. -/
  | write (fd : Nat) (text : CStr)
  /-- A call `run_Command(exe_path, commands)`: the fork, the `execve` in the
  child and the `waitpid` in the parent. -/
  | exec (exe_path : CStr) (argv : List CStr)
  deriving DecidableEq, Repr

/-- The executor invocations of a trace, in order. -/
def execs : List Event → List (CStr × List CStr)
  | [] => []
  | Event.exec p a :: es => (p, a) :: execs es
  | _ :: es => execs es

/-- The text written to descriptor `fd` by a trace. -/
def written (fd : Nat) : List Event → CStr
  | [] => []
  | Event.write fd1 t :: es => if fd1 = fd then t ++ written fd es else written fd es
  | _ :: es => written fd es

/-! ## `strtok` -/

/-- One call of `strtok` with saved position `s`: skip the leading delimiters;
when nothing is left the result is NULL (`none`); otherwise the token runs up to
the next delimiter, which is overwritten by NUL, and the saved position moves
behind it. -/
def strtok (delims : CStr) (s : CStr) : Option (CStr × CStr) :=
  match s.dropWhile (fun c => delims.contains c) with
  | [] => none
  | c :: cs =>
    some ((c :: cs).takeWhile (fun x => !delims.contains x),
          ((c :: cs).dropWhile (fun x => !delims.contains x)).drop 1)

/-- The loop `token = strtok(s, d); while (token != NULL) { ...; token =
strtok(NULL, d); }`, collecting the tokens.  Every call consumes at least one
character, so `s.length + 1` rounds always reach NULL. -/
def strtok_loop (delims : CStr) : Nat → CStr → List CStr
  | 0, _ => []
  | fuel + 1, s =>
    match strtok delims s with
    | none => []
    | some (tok, rest) => tok :: strtok_loop delims fuel rest

/-- All tokens of `s`. -/
def strtok_all (delims : CStr) (s : CStr) : List CStr :=
  strtok_loop delims (s.length + 1) s

/-! ## Line reader -/

/-- The test `isspace(c)` in the C locale. -/
def isspace (c : Char) : Bool :=
  c == ' ' || c == '\t' || c == '\n' || c.toNat == 11 || c.toNat == 12 || c == '\r'

/-- The body of the read loop of `get_Input` for one byte:
`if (input[i] < 32 || input[i] > 126) input[i] = '\t';`.  Bytes above 127 are
negative when `char` is signed and above 126 when it is unsigned, so they are
replaced either way. -/
def sanitize (c : Char) : Char :=
  if c.toNat < 32 ∨ c.toNat > 126 then '\t' else c

/-- What `read` reports once the bytes of the stream are used up. -/
inductive ReadEnd where
  /-- The call `read` returns `0`. -/
  | eof
  /-- The call `read` returns a negative value. -/
  | error
  deriving DecidableEq, Repr

/-- The ways `get_Input` ends. -/
inductive InputResult where
  /-- The function returns `input`; `unread` is what is left on the stream. -/
  | line (input : CStr) (unread : List Char)
  /-- The branch `status == 0`: a newline is written and the process leaves
  with `exit(EXIT_SUCCESS)`. -/
  | exit_success
  /-- The branch `status < 0`: a message is written and the process leaves with
  `exit(EXIT_FAILURE)`. -/
  | exit_failure
  deriving DecidableEq, Repr

/-- The read loop of `get_Input` and what follows it; `acc` is `input[0..i)`. -/
def get_Input_loop (ending : ReadEnd) : List Char → CStr → InputResult
  | [], _ =>
    match ending with
    | ReadEnd.eof => InputResult.exit_success
    | ReadEnd.error => InputResult.exit_failure
  | c :: cs, acc =>
    if c = '\n' then InputResult.line (acc ++ "\t;".toList) cs
    else get_Input_loop ending cs (acc ++ [sanitize c])

/-- The function `get_Input` on a stream holding `bytes`. -/
def get_Input (bytes : List Char) (ending : ReadEnd) : InputResult :=
  get_Input_loop ending bytes []

/-! ## Normalizer, search path, splitter, tokenizer -/

/-- The function `normalize`: every `isspace` character becomes a tab. -/
def normalize (input : CStr) : CStr :=
  input.map (fun c => if isspace c then '\t' else c)

/-- The function `get_Paths`: the `:`-separated pieces of `PATH`, each with a
slash behind it. -/
def get_Paths (PATH : CStr) : List CStr :=
  (strtok_all ":".toList PATH).map (fun curr_path => curr_path ++ ['/'])

/-- The function `split_Comm`: the `;`-separated pieces of the line, each
followed by a tab and a semicolon. -/
def split_Comm (the_args : CStr) : List CStr :=
  (strtok_all ";".toList the_args).map (fun token => token ++ "\t;".toList)

/-- The function `tokenize_Arguments`: the tab-separated pieces of a group. -/
def tokenize_Arguments (the_args : CStr) : List CStr :=
  strtok_all "\t".toList the_args

/-! ## Executable resolver -/

/-- The loop of `get_Exe_Path` over `valid_paths`. -/
def search_paths (env : Env) (command : CStr) : List CStr → Option CStr × List Event
  | [] => (none, [])
  | p :: ps =>
    if env.fileExists (p ++ command) then (some (p ++ command), [Event.stat (p ++ command)])
    else ((search_paths env command ps).1,
          Event.stat (p ++ command) :: (search_paths env command ps).2)

/-- The function `get_Exe_Path`: the path found (`none` for NULL) and the
system calls made. -/
def get_Exe_Path (env : Env) (command : CStr) (valid_paths : List CStr) :
    Option CStr × List Event :=
  if env.fileExists (env.PWD ++ "/".toList ++ command) then
    (some (env.PWD ++ "/".toList ++ command), [Event.stat (env.PWD ++ "/".toList ++ command)])
  else
    match search_paths env command valid_paths with
    | (some p, evs) => (some p, Event.stat (env.PWD ++ "/".toList ++ command) :: evs)
    | (none, evs) =>
      (none, Event.stat (env.PWD ++ "/".toList ++ command) :: evs ++
        [Event.write STDOUT command, Event.write STDOUT " :COMMAND NOT FOUND\n".toList])

/-! ## Process executor -/

/-- The function `run_Command`: the status returned (`none` when the process
leaves through `exit(EXIT_FAILURE)`) and the system calls made. -/
def run_Command (env : Env) (exe_path : CStr) (commands : List CStr) :
    Option Int × List Event :=
  match env.child exe_path commands with
  | ChildOutcome.exited code => (some ((code % 256 : Nat) : Int), [Event.exec exe_path commands])
  | ChildOutcome.abnormal =>
    (some (-1), [Event.exec exe_path commands,
                 Event.write STDERR "ERROR OBTAINING STATUS CODE\n".toList])
  | ChildOutcome.forkFailed =>
    (none, [Event.exec exe_path commands,
            Event.write STDERR "ERROR: COULD NOT FORK, TERMINATING..\n".toList])

/-! ## Control-flow interpreter -/

/-- The local variables of `parse_arguments`, and the trace so far. -/
structure PState where
  /-- The array `command_lines`; `none` is a NULL entry. -/
  command_lines : List (Option CStr)
  /-- The pointer `exe_path`; `none` is NULL. -/
  exe_path : Option CStr
  cmd_pos : Nat
  skip_next : Int
  cmd_sts : Int
  trace : List Event

/-- How the body of the `while` loop is left. -/
inductive Flow where
  /-- The statement `arg_pos++` is reached: on to the next token. -/
  | next
  /-- The statement `break` in the `&&` branch. -/
  | brk
  /-- The process left through `exit(EXIT_FAILURE)` inside `run_Command`. -/
  | exit
  deriving DecidableEq, Repr

/-- The state at the `while` of `parse_arguments`: `exe_path` is a fresh zeroed
buffer, `command_lines` one NULL entry. -/
def init_state : PState :=
  { command_lines := [none], exe_path := some [], cmd_pos := 0, skip_next := 0,
    cmd_sts := 0, trace := [] }

/-- The entry `command_lines[0]`. -/
def first_word (command_lines : List (Option CStr)) : Option CStr :=
  match command_lines with
  | some w :: _ => some w
  | _ => none

/-- The argument vector `execve` sees in `command_lines`: the entries before
the first NULL. -/
def argv_of : List (Option CStr) → List CStr
  | some w :: rest => w :: argv_of rest
  | _ => []

/-- The call `realloc(command_lines, n * sizeof(ptr))`: the first `n` entries
are kept; an entry that is new is written before it is read, and stands here
as NULL. -/
def realloc_ptrs (command_lines : List (Option CStr)) (n : Nat) : List (Option CStr) :=
  (command_lines ++ List.replicate n none).take n

/-- The loop `while (cmd_pos >= 0) { command_lines[cmd_pos] = NULL; cmd_pos--; }`. -/
def clear_lines (command_lines : List (Option CStr)) : Nat → List (Option CStr)
  | 0 => command_lines.set 0 none
  | cmd_pos + 1 => clear_lines (command_lines.set (cmd_pos + 1) none) cmd_pos

/-- The tokens the interpreter treats as operators. -/
def is_op (tok : CStr) : Bool :=
  tok == ";".toList || tok == "&&".toList || tok == "||".toList

/-- The last branch of the loop body: a plain word is stored in `command_lines`. -/
def branch_word (st : PState) (tok : CStr) : PState × Flow :=
  ({ st with
      command_lines :=
        ((realloc_ptrs st.command_lines (st.cmd_pos + 2)).set st.cmd_pos (some tok)).set
          (st.cmd_pos + 1) none
      cmd_pos := st.cmd_pos + 1 }, Flow.next)

/-- The branch of the loop body for the token `;`. -/
def branch_semi (env : Env) (valid_paths : List CStr) (st : PState) : PState × Flow :=
  let st1 : PState :=
    match first_word st.command_lines with
    | some w =>
      { st with exe_path := (get_Exe_Path env w valid_paths).1
                trace := st.trace ++ (get_Exe_Path env w valid_paths).2 }
    | none => { st with cmd_sts := 19 }
  let finish (s : PState) : PState :=
    { s with skip_next := if s.skip_next = 1 then 0 else s.skip_next
             command_lines := clear_lines s.command_lines s.cmd_pos
             cmd_pos := 0
             exe_path := some [] }
  match st1.exe_path with
  | some p =>
    if st1.skip_next ≠ 1 then
      match run_Command env p (argv_of st1.command_lines) with
      | (some sts, evs) =>
        (finish { st1 with cmd_sts := sts, exe_path := some [], trace := st1.trace ++ evs },
          Flow.next)
      | (none, evs) => ({ st1 with trace := st1.trace ++ evs }, Flow.exit)
    else (finish { st1 with cmd_sts := 1 }, Flow.next)
  | none => (finish { st1 with cmd_sts := 1 }, Flow.next)

/-- The branch of the loop body for the token `&&`. -/
def branch_and (env : Env) (valid_paths : List CStr) (st : PState) : PState × Flow :=
  let st1 : PState :=
    match first_word st.command_lines with
    | some w =>
      { st with exe_path := (get_Exe_Path env w valid_paths).1
                cmd_sts := 2
                trace := st.trace ++ (get_Exe_Path env w valid_paths).2 }
    | none => st
  let finish (s : PState) : PState × Flow :=
    if s.cmd_sts ≠ 0 then (s, Flow.brk)
    else ({ s with cmd_pos := 0, exe_path := some [] }, Flow.next)
  let skipped (s : PState) : PState :=
    if s.skip_next = 1 then { s with skip_next := 0, cmd_sts := 0 } else s
  match st1.exe_path with
  | some p =>
    if st1.cmd_sts ≠ 0 ∧ st1.skip_next ≠ 1 then
      match run_Command env p (argv_of st1.command_lines) with
      | (some sts, evs) =>
        finish { st1 with cmd_sts := sts, exe_path := some [], trace := st1.trace ++ evs }
      | (none, evs) => ({ st1 with trace := st1.trace ++ evs }, Flow.exit)
    else finish (skipped st1)
  | none => finish (skipped st1)

/-- The branch of the loop body for the token `||`. -/
def branch_or (env : Env) (valid_paths : List CStr) (st : PState) : PState × Flow :=
  let st0 : PState := { st with cmd_sts := 1 }
  let st1 : PState :=
    match first_word st0.command_lines with
    | some w =>
      if st0.skip_next ≠ 1 then
        { st0 with exe_path := (get_Exe_Path env w valid_paths).1
                   trace := st0.trace ++ (get_Exe_Path env w valid_paths).2 }
      else st0
    | none => st0
  let finish (s : PState) : PState :=
    { s with skip_next := if s.cmd_sts = 0 then 1 else s.skip_next
             cmd_pos := 0
             exe_path := some [] }
  match st1.exe_path with
  | some p =>
    if st1.skip_next ≠ 1 then
      match run_Command env p (argv_of st1.command_lines) with
      | (some sts, evs) =>
        (finish { st1 with cmd_sts := sts, exe_path := some [], trace := st1.trace ++ evs },
          Flow.next)
      | (none, evs) => ({ st1 with trace := st1.trace ++ evs }, Flow.exit)
    else (finish st1, Flow.next)
  | none => (finish st1, Flow.next)

/-- The body of the `while` loop of `parse_arguments` for one token. -/
def parse_step (env : Env) (valid_paths : List CStr) (st : PState) (tok : CStr) :
    PState × Flow :=
  if tok = ";".toList then branch_semi env valid_paths st
  else if tok = "&&".toList then branch_and env valid_paths st
  else if tok = "||".toList then branch_or env valid_paths st
  else branch_word st tok

/-- The `while` loop of `parse_arguments` from state `st` over the tokens that
are left. -/
def parse_loop (env : Env) (valid_paths : List CStr) : List CStr → PState → PState × Flow
  | [], st => (st, Flow.next)
  | tok :: rest, st =>
    match parse_step env valid_paths st tok with
    | (st1, Flow.next) => parse_loop env valid_paths rest st1
    | (st1, fl) => (st1, fl)

/-- The function `parse_arguments`: the final state, and whether the process is
still alive (`Flow.exit` when it is not). -/
def parse_arguments (env : Env) (arg_tokens : List CStr) (valid_paths : List CStr) :
    PState × Flow :=
  parse_loop env valid_paths arg_tokens init_state

/-! ## Driver -/

/-- The loop of `parse_Input` over the command groups: the trace, and whether
the process left through `exit`. -/
def run_groups (env : Env) (valid_paths : List CStr) : List CStr → List Event × Bool
  | [] => ([], false)
  | g :: gs =>
    match parse_arguments env (tokenize_Arguments g) valid_paths with
    | (st, Flow.exit) => (st.trace, true)
    | (st, _) =>
      (st.trace ++ (run_groups env valid_paths gs).1, (run_groups env valid_paths gs).2)

/-- The function `parse_Input`, with `PATH` the value of `getenv("PATH")`. -/
def parse_Input (env : Env) (PATH : CStr) (input : CStr) : List Event × Bool :=
  if input.length < 1 then ([], false)
  else run_groups env (get_Paths PATH) (split_Comm (normalize input))

/-- One round of the loop of `main` after the prompt, on a stream that holds
`line` and a newline: `get_Input` followed by `parse_Input`. -/
def interpret_line (env : Env) (PATH : CStr) (line : List Char) : List Event × Bool :=
  match get_Input (line ++ ['\n']) ReadEnd.eof with
  | InputResult.line input _ => parse_Input env PATH input
  | _ => ([], true)

/-- The command groups `parse_Input` works through for a stream that holds
`line` and a newline. -/
def command_groups (line : List Char) : List CStr :=
  match get_Input (line ++ ['\n']) ReadEnd.eof with
  | InputResult.line input _ => split_Comm (normalize input)
  | _ => []

/-! ## Notions of the specification -/

/-- Splitting in the words of the specification: cut `s` at every delimiter
and drop the empty pieces. -/
def split_nonempty (is_delim : Char → Bool) (s : CStr) : List CStr :=
  (s.splitOnP is_delim).filter (fun t => decide (t ≠ []))

/-- The whitespace-split tokens of a line. -/
def words (line : List Char) : List CStr :=
  split_nonempty isspace line

/-- A byte of a line (so not the newline) that is whitespace or a printable
non-blank character. -/
def plain_char (c : Char) : Bool :=
  c != '\n' && (isspace c || (32 < c.toNat && c.toNat ≤ 126))

/-- What `get_Input` followed by `normalize` makes of one byte of the line. -/
def delimited (c : Char) : Char :=
  if isspace (sanitize c) then '\t' else sanitize c

/-- The candidate paths of the resolver, in the order in which they are tried. -/
def candidates (env : Env) (command : CStr) (valid_paths : List CStr) : List CStr :=
  (env.PWD ++ "/".toList ++ command) :: valid_paths.map (fun p => p ++ command)

/-- The system calls that are not diagnostics on the error stream. -/
def is_control (e : Event) : Bool :=
  match e with
  | Event.write fd _ => fd != STDERR
  | _ => true

/-- The trace without the diagnostics that `run_Command` writes to the error
stream: the calls of the resolver and of the executor, in order. -/
def control_trace (trace : List Event) : List Event :=
  trace.filter is_control

/-- Two states of `parse_arguments` that agree in everything but the value of a
non-zero status and the diagnostics on the error stream. -/
def same_control (st1 st2 : PState) : Prop :=
  st1.command_lines = st2.command_lines ∧ st1.exe_path = st2.exe_path ∧
  st1.cmd_pos = st2.cmd_pos ∧ st1.skip_next = st2.skip_next ∧
  (st1.cmd_sts = 0 ↔ st2.cmd_sts = 0) ∧
  control_trace st1.trace = control_trace st2.trace

/-- The executor calls of a trace that are not for the command `x`: those whose
argument vector does not start with `x`. -/
def execs_other_than (x : CStr) (trace : List Event) : List (CStr × List CStr) :=
  (execs trace).filter (fun call => decide (call.2.head? ≠ some x))

/-- Two states of `parse_arguments` that agree in everything but the value of a
non-zero status and the executor calls for the command `x`. -/
def same_but_for (x : CStr) (st1 st2 : PState) : Prop :=
  st1.command_lines = st2.command_lines ∧ st1.exe_path = st2.exe_path ∧
  st1.cmd_pos = st2.cmd_pos ∧ st1.skip_next = st2.skip_next ∧
  (st1.cmd_sts = 0 ↔ st2.cmd_sts = 0) ∧
  execs_other_than x st1.trace = execs_other_than x st2.trace

/-! ## A concrete environment

The directory `/bin/` holds `a`, `b` and `c`; `a` leaves with `status_a`, every
other program with `0`. -/

def demo_env (status_a : Nat) : Env :=
  { PWD := "/home".toList
    fileExists := fun p =>
      p == "/bin/a".toList || p == "/bin/b".toList || p == "/bin/c".toList
    child := fun p _ =>
      if p == "/bin/a".toList then ChildOutcome.exited status_a else ChildOutcome.exited 0 }

/-- The concrete environment without the program `a`: the directory `/bin/`
holds `b` and `c` only. -/
def demo_env_without_a : Env :=
  { PWD := "/home".toList
    fileExists := fun p => p == "/bin/b".toList || p == "/bin/c".toList
    child := (demo_env 1).child }

def demo_paths : List CStr := ["/usr/bin/".toList, "/bin/".toList]

def demo_PATH : CStr := "/usr/bin:/bin".toList

end Shell

/-! # Verification -/

namespace Shell

/-! ## Tokenising by `strtok` -/

theorem dropWhile_eq_cons {p : Char → Bool} :
    ∀ {l : List Char} {c : Char} {cs : List Char}, l.dropWhile p = c :: cs →
      p c = false ∧ l = l.takeWhile p ++ c :: cs := by
  intro l
  induction l with
  | nil => intro c cs h; simp at h
  | cons x xs ih =>
    intro c cs h
    by_cases hx : p x = true
    · rw [List.dropWhile_cons_of_pos hx] at h
      obtain ⟨h1, h2⟩ := ih h
      refine ⟨h1, ?_⟩
      rw [List.takeWhile_cons_of_pos hx, List.cons_append, ← h2]
    · have hx1 : p x = false := by simpa using hx
      rw [List.dropWhile_cons_of_neg hx] at h
      injection h with h1 h2
      subst h1
      refine ⟨hx1, ?_⟩
      rw [List.takeWhile_cons_of_neg hx, h2]
      rfl

theorem split_nonempty_nil (p : Char → Bool) : split_nonempty p [] = [] := by
  simp [split_nonempty, List.splitOnP_nil]

theorem split_nonempty_cons_delim (p : Char → Bool) (c : Char) (s : CStr)
    (hc : p c = true) : split_nonempty p (c :: s) = split_nonempty p s := by
  simp [split_nonempty, List.splitOnP_cons, hc]

theorem split_nonempty_skip (p : Char → Bool) (pre u : CStr)
    (hpre : ∀ x ∈ pre, p x = true) :
    split_nonempty p (pre ++ u) = split_nonempty p u := by
  induction pre with
  | nil => rfl
  | cons x xs ih =>
    rw [List.cons_append, split_nonempty_cons_delim p x _ (hpre x (List.mem_cons_self _ _))]
    exact ih (fun y hy => hpre y (List.mem_cons_of_mem _ hy))

theorem split_nonempty_single (p : Char → Bool) (tok : CStr) (hne : tok ≠ [])
    (htok : ∀ x ∈ tok, p x = false) : split_nonempty p tok = [tok] := by
  have h : tok.splitOnP p = [tok] :=
    List.splitOnP_eq_single p tok (fun x hx => by simp [htok x hx])
  simp [split_nonempty, h, hne]

theorem split_nonempty_first (p : Char → Bool) (tok : CStr) (sep : Char) (rest : CStr)
    (hne : tok ≠ []) (htok : ∀ x ∈ tok, p x = false) (hsep : p sep = true) :
    split_nonempty p (tok ++ sep :: rest) = tok :: split_nonempty p rest := by
  have h : (tok ++ sep :: rest).splitOnP p = tok :: rest.splitOnP p :=
    List.splitOnP_first p tok (fun x hx => by simp [htok x hx]) sep hsep rest
  simp [split_nonempty, h, hne]

theorem strtok_none (delims s : CStr) (h : strtok delims s = none) :
    split_nonempty (fun c => delims.contains c) s = [] := by
  unfold strtok at h
  split at h
  · rename_i hd
    have hall : ∀ x ∈ s, delims.contains x = true := by
      intro x hx
      exact (List.dropWhile_eq_nil_iff.mp hd) x hx
    have := split_nonempty_skip (fun c => delims.contains c) s [] hall
    rw [List.append_nil] at this
    rw [this, split_nonempty_nil]
  · simp at h

theorem strtok_some (delims s tok rest : CStr) (h : strtok delims s = some (tok, rest)) :
    split_nonempty (fun c => delims.contains c) s
        = tok :: split_nonempty (fun c => delims.contains c) rest
      ∧ rest.length < s.length ∧ tok ≠ [] ∧ (∀ x ∈ tok, delims.contains x = false) := by
  unfold strtok at h
  split at h
  · simp at h
  · rename_i c cs hd
    obtain ⟨hc, hs⟩ := dropWhile_eq_cons hd
    injection h with h
    injection h with htok hrest
    have hpre : ∀ x ∈ s.takeWhile (fun c => delims.contains c), delims.contains x = true :=
      fun x hx => List.mem_takeWhile_imp hx
    have htokmem : ∀ x ∈ tok, delims.contains x = false := by
      intro x hx
      rw [← htok] at hx
      have := List.mem_takeWhile_imp hx
      simpa using this
    have hcneg : (!delims.contains c) = true := by rw [hc]; rfl
    have htokne : tok ≠ [] := by
      have h1 : (c :: cs).takeWhile (fun x => !delims.contains x)
          = c :: cs.takeWhile (fun x => !delims.contains x) :=
        List.takeWhile_cons_of_pos (p := fun x => !delims.contains x) hcneg
      rw [← htok, h1]
      exact List.cons_ne_nil _ _
    have hu : c :: cs = tok ++ (c :: cs).dropWhile (fun x => !delims.contains x) := by
      rw [← htok, List.takeWhile_append_dropWhile]
    have hlen : (c :: cs).length ≤ s.length := by
      have := congrArg List.length hs
      rw [List.length_append] at this
      omega
    have hspec : split_nonempty (fun c => delims.contains c) s
        = split_nonempty (fun c => delims.contains c) (c :: cs) := by
      conv_lhs => rw [hs]
      exact split_nonempty_skip _ _ _ hpre
    rw [hspec]
    cases hdw : (c :: cs).dropWhile (fun x => !delims.contains x) with
    | nil =>
      rw [hdw, List.append_nil] at hu
      rw [hdw] at hrest
      simp only [List.drop_nil] at hrest
      subst hrest
      refine ⟨?_, ?_, htokne, htokmem⟩
      · rw [hu, split_nonempty_single _ tok htokne htokmem, split_nonempty_nil]
      · have : 0 < (c :: cs).length := by simp
        simp only [List.length_nil]
        omega
    | cons sep as =>
      rw [hdw] at hu hrest
      simp only [List.drop_succ_cons, List.drop_zero] at hrest
      subst hrest
      obtain ⟨hsep, -⟩ := dropWhile_eq_cons hdw
      have hsep1 : delims.contains sep = true := by simpa using hsep
      refine ⟨?_, ?_, htokne, htokmem⟩
      · rw [hu]
        exact split_nonempty_first _ tok sep _ htokne htokmem hsep1
      · have := congrArg List.length hu
        simp only [List.length_append, List.length_cons] at this hlen
        omega

theorem strtok_loop_eq (delims : CStr) :
    ∀ (fuel : Nat) (s : CStr), s.length < fuel →
      strtok_loop delims fuel s = split_nonempty (fun c => delims.contains c) s := by
  intro fuel
  induction fuel with
  | zero => intro s h; omega
  | succ n ih =>
    intro s hs
    unfold strtok_loop
    cases hst : strtok delims s with
    | none => simp only []; rw [strtok_none delims s hst]
    | some tr =>
      obtain ⟨tok, rest⟩ := tr
      obtain ⟨h1, h2, -, -⟩ := strtok_some delims s tok rest hst
      simp only []
      rw [h1, ih rest (by omega)]

/-- The tokens collected by the `strtok` loop are the non-empty pieces of `s`
between delimiters. -/
theorem strtok_all_eq (delims s : CStr) :
    strtok_all delims s = split_nonempty (fun c => delims.contains c) s :=
  strtok_loop_eq delims (s.length + 1) s (Nat.lt_succ_self _)

/-- More rounds than `s.length + 1` never produce another token. -/
theorem strtok_loop_fuel (delims : CStr) (fuel : Nat) (s : CStr) (h : s.length < fuel) :
    strtok_loop delims fuel s = strtok_all delims s := by
  rw [strtok_loop_eq delims fuel s h, strtok_all_eq]

theorem strtok_sub (delims s tok rest : CStr) (h : strtok delims s = some (tok, rest)) :
    (∀ x ∈ tok, x ∈ s) ∧ (∀ x ∈ rest, x ∈ s) := by
  unfold strtok at h
  split at h
  · simp at h
  · rename_i c cs hd
    obtain ⟨-, hs⟩ := dropWhile_eq_cons hd
    injection h with h
    injection h with htok hrest
    have hsub : ∀ x ∈ c :: cs, x ∈ s := by
      intro x hx
      rw [hs]
      exact List.mem_append_right _ hx
    constructor
    · intro x hx
      rw [← htok] at hx
      exact hsub x ((List.takeWhile_sublist _).subset hx)
    · intro x hx
      rw [← hrest] at hx
      exact hsub x ((List.dropWhile_sublist _).subset (List.mem_of_mem_drop hx))

theorem strtok_loop_mem (delims : CStr) :
    ∀ (fuel : Nat) (s t : CStr), t ∈ strtok_loop delims fuel s →
      t ≠ [] ∧ (∀ x ∈ t, delims.contains x = false) ∧ (∀ x ∈ t, x ∈ s) := by
  intro fuel
  induction fuel with
  | zero => intro s t h; simp [strtok_loop] at h
  | succ n ih =>
    intro s t h
    unfold strtok_loop at h
    cases hst : strtok delims s with
    | none => rw [hst] at h; simp at h
    | some tr =>
      obtain ⟨tok, rest⟩ := tr
      rw [hst] at h
      simp only [List.mem_cons] at h
      obtain ⟨-, -, h3, h4⟩ := strtok_some delims s tok rest hst
      obtain ⟨h5, h6⟩ := strtok_sub delims s tok rest hst
      rcases h with h | h
      · subst h
        exact ⟨h3, h4, h5⟩
      · obtain ⟨i1, i2, i3⟩ := ih rest t h
        exact ⟨i1, i2, fun x hx => h6 x (i3 x hx)⟩

theorem splitOnP_append_cons (p : Char → Bool) (d : Char) (hd : p d = true) (y : CStr) :
    ∀ x : CStr, (x ++ d :: y).splitOnP p = x.splitOnP p ++ y.splitOnP p := by
  intro x
  induction x with
  | nil => simp [List.splitOnP_cons, hd, List.splitOnP_nil]
  | cons c cs ih =>
    rw [List.cons_append, List.splitOnP_cons, List.splitOnP_cons, ih]
    by_cases hc : p c = true
    · simp [hc]
    · simp only [hc, if_false]
      cases hsp : cs.splitOnP p with
      | nil => exact absurd hsp (List.splitOnP_ne_nil p cs)
      | cons a as => rfl

/-- A delimiter between two strings separates their tokens. -/
theorem split_nonempty_append (p : Char → Bool) (d : Char) (hd : p d = true) (x y : CStr) :
    split_nonempty p (x ++ d :: y) = split_nonempty p x ++ split_nonempty p y := by
  simp [split_nonempty, splitOnP_append_cons p d hd y x]

theorem split_nonempty_snoc (p : Char → Bool) (d : Char) (hd : p d = true) (x : CStr) :
    split_nonempty p (x ++ [d]) = split_nonempty p x := by
  rw [split_nonempty_append p d hd, split_nonempty_nil, List.append_nil]

theorem contains_single (d : Char) :
    (fun c => [d].contains c) = (fun c : Char => c == d) := by
  funext c
  cases h : c == d <;> simp [List.contains, List.elem, h]

theorem tokenize_Arguments_eq (s : CStr) :
    tokenize_Arguments s = split_nonempty (fun c => c == '\t') s := by
  unfold tokenize_Arguments
  rw [strtok_all_eq]
  exact congrArg (fun p => split_nonempty p s) (contains_single '\t')

theorem split_Comm_eq (s : CStr) :
    split_Comm s = (split_nonempty (fun c => c == ';') s).map (fun t => t ++ "\t;".toList) := by
  unfold split_Comm
  rw [strtok_all_eq]
  exact congrArg (fun p => (split_nonempty p s).map (fun t => t ++ "\t;".toList))
    (contains_single ';')

theorem get_Paths_eq (s : CStr) :
    get_Paths s = (split_nonempty (fun c => c == ':') s).map (fun t => t ++ ['/']) := by
  unfold get_Paths
  rw [strtok_all_eq]
  exact congrArg (fun p => (split_nonempty p s).map (fun t => t ++ ['/']))
    (contains_single ':')

/-- Every token of `strtok_all` is non-empty, free of delimiters and made of
characters of `s`. -/
theorem strtok_all_mem (d : Char) (s t : CStr) (h : t ∈ strtok_all [d] s) :
    t ≠ [] ∧ d ∉ t ∧ ∀ x ∈ t, x ∈ s := by
  obtain ⟨h1, h2, h3⟩ := strtok_loop_mem [d] _ s t h
  refine ⟨h1, ?_, h3⟩
  intro hd
  have := h2 d hd
  simp [List.contains, List.elem] at this

/-! ## Traces -/

theorem execs_append (xs ys : List Event) : execs (xs ++ ys) = execs xs ++ execs ys := by
  induction xs with
  | nil => rfl
  | cons e es ih => cases e <;> simp [execs, ih]

theorem execs_search_paths (env : Env) (command : CStr) (vp : List CStr) :
    execs (search_paths env command vp).2 = [] := by
  induction vp with
  | nil => rfl
  | cons p ps ih =>
    unfold search_paths
    split
    · rfl
    · simpa [execs] using ih

/-- The resolver never starts a process. -/
theorem execs_get_Exe_Path (env : Env) (command : CStr) (vp : List CStr) :
    execs (get_Exe_Path env command vp).2 = [] := by
  have h := execs_search_paths env command vp
  unfold get_Exe_Path
  split
  · rfl
  · split
    · rename_i p evs heq
      rw [heq] at h
      simpa [execs] using h
    · rename_i evs heq
      rw [heq] at h
      simp only [execs, List.cons_append] at h ⊢
      exact (execs_append evs _).trans (by rw [h]; rfl)

/-- Every call of `run_Command` is one executor invocation. -/
theorem execs_run_Command (env : Env) (p : CStr) (argv : List CStr) :
    execs (run_Command env p argv).2 = [(p, argv)] := by
  unfold run_Command
  split <;> rfl

/-! ## Words accumulate in `command_lines` -/

theorem parse_step_word (env : Env) (vp : List CStr) (st : PState) (tok : CStr)
    (h : is_op tok = false) : parse_step env vp st tok = branch_word st tok := by
  unfold is_op at h
  simp only [Bool.or_eq_false_iff, beq_eq_false_iff_ne, ne_eq] at h
  obtain ⟨⟨h1, h2⟩, h3⟩ := h
  simp only [parse_step, h1, h2, h3, if_false]

theorem parse_loop_next (env : Env) (vp : List CStr) (st st1 : PState) (tok : CStr)
    (rest : List CStr) (h : parse_step env vp st tok = (st1, Flow.next)) :
    parse_loop env vp (tok :: rest) st = parse_loop env vp rest st1 := by
  simp only [parse_loop, h]

theorem parse_loop_stop (env : Env) (vp : List CStr) (st st1 : PState) (tok : CStr)
    (rest : List CStr) (fl : Flow) (hfl : fl ≠ Flow.next)
    (h : parse_step env vp st tok = (st1, fl)) :
    parse_loop env vp (tok :: rest) st = (st1, fl) := by
  cases fl with
  | next => exact absurd rfl hfl
  | brk => simp only [parse_loop, h]
  | exit => simp only [parse_loop, h]

theorem store_word (t : CStr) :
    ∀ (k : Nat) (cl : List (Option CStr)) (m : Nat), k ≤ cl.length → 2 ≤ m →
      (((cl ++ List.replicate (k + m) none).take (k + 2)).set k (some t)).set (k + 1) none
        = cl.take k ++ [some t, none] := by
  intro k
  induction k with
  | zero =>
    intro cl m _ hm
    obtain ⟨m, rfl⟩ : ∃ m1, m = m1 + 2 := ⟨m - 2, by omega⟩
    match cl with
    | [] => simp [List.replicate_succ]
    | [a] => simp [List.replicate_succ]
    | a :: b :: r => simp
  | succ k ih =>
    intro cl m hk hm
    match cl, hk with
    | x :: cl1, hk =>
      have hk1 : k ≤ cl1.length := by simpa using hk
      have := ih cl1 (m + 1) hk1 (by omega)
      have e1 : k + 1 + m = k + (m + 1) := by omega
      simp only [List.cons_append, e1, List.take_succ_cons, List.set_cons_succ]
      rw [this]

theorem branch_word_lines (st : PState) (tok : CStr) (h : st.cmd_pos ≤ st.command_lines.length) :
    branch_word st tok =
      ({ st with command_lines := st.command_lines.take st.cmd_pos ++ [some tok, none]
                 cmd_pos := st.cmd_pos + 1 }, Flow.next) := by
  unfold branch_word realloc_ptrs
  have := store_word tok st.cmd_pos st.command_lines 2 h (le_refl _)
  rw [this]

/-- A run of plain words `w :: ws` is appended to the first `cmd_pos` entries
of `command_lines`, followed by NULL. -/
theorem parse_loop_words (env : Env) (vp : List CStr) (rest : List CStr) :
    ∀ (ws : List CStr) (w : CStr) (st : PState),
      (∀ x ∈ w :: ws, is_op x = false) → st.cmd_pos ≤ st.command_lines.length →
      parse_loop env vp ((w :: ws) ++ rest) st =
        parse_loop env vp rest
          { st with command_lines :=
                      st.command_lines.take st.cmd_pos ++ (w :: ws).map some ++ [none]
                    cmd_pos := st.cmd_pos + (w :: ws).length } := by
  intro ws
  induction ws with
  | nil =>
    intro w st hw hk
    have h1 := parse_step_word env vp st w (hw w (List.mem_cons_self _ _))
    rw [branch_word_lines st w hk] at h1
    rw [List.cons_append, List.nil_append, parse_loop_next env vp st _ w rest h1]
    simp
  | cons w2 ws ih =>
    intro w st hw hk
    have h1 := parse_step_word env vp st w (hw w (List.mem_cons_self _ _))
    have hlen : (st.command_lines.take st.cmd_pos).length = st.cmd_pos :=
      List.length_take_of_le hk
    rw [branch_word_lines st w hk] at h1
    rw [List.cons_append, parse_loop_next env vp st _ w _ h1]
    rw [ih w2 _ (fun x hx => hw x (List.mem_cons_of_mem _ hx)) (by simp [hlen])]
    congr 1
    have e : (st.command_lines.take st.cmd_pos ++ [some w, none]).take (st.cmd_pos + 1)
        = st.command_lines.take st.cmd_pos ++ [some w] := by
      rw [List.take_append_eq_append_take, hlen]
      simp [List.take_of_length_le, hlen]
    simp only [e, List.length_cons, List.map_cons, List.append_assoc, List.cons_append,
      List.nil_append]
    congr 1
    omega

theorem first_word_words (w : CStr) (ws : List CStr) :
    first_word ((w :: ws).map some ++ [none]) = some w := rfl

theorem argv_of_words : ∀ ws : List CStr, argv_of (ws.map some ++ [none]) = ws
  | [] => rfl
  | w :: ws => by simp [argv_of, argv_of_words ws]

/-! ## The operator branches on a state that holds a command -/

/-- The branch `&&` when `command_lines` holds a command and no skip is
pending. -/
theorem branch_and_ready (env : Env) (vp : List CStr) (st : PState) (w : CStr)
    (hw : first_word st.command_lines = some w) (hs : st.skip_next = 0) :
    branch_and env vp st =
      match (get_Exe_Path env w vp).1 with
      | none =>
        ({ st with exe_path := none, cmd_sts := 2
                   trace := st.trace ++ (get_Exe_Path env w vp).2 }, Flow.brk)
      | some p =>
        match (run_Command env p (argv_of st.command_lines)).1 with
        | none =>
          ({ st with exe_path := some p, cmd_sts := 2
                     trace := st.trace ++ (get_Exe_Path env w vp).2
                       ++ (run_Command env p (argv_of st.command_lines)).2 }, Flow.exit)
        | some sts =>
          if sts ≠ 0 then
            ({ st with exe_path := some [], cmd_sts := sts
                       trace := st.trace ++ (get_Exe_Path env w vp).2
                         ++ (run_Command env p (argv_of st.command_lines)).2 }, Flow.brk)
          else
            ({ st with exe_path := some [], cmd_sts := sts, cmd_pos := 0
                       trace := st.trace ++ (get_Exe_Path env w vp).2
                         ++ (run_Command env p (argv_of st.command_lines)).2 }, Flow.next) := by
  unfold branch_and
  simp only [hw, hs]
  cases hg : (get_Exe_Path env w vp).1 with
  | none => simp
  | some p =>
    simp only [ne_eq, OfNat.ofNat_ne_zero, not_false_eq_true, zero_ne_one, and_self, if_true]
    rcases hr : run_Command env p (argv_of st.command_lines) with ⟨_ | sts, evs⟩
    · simp
    · by_cases h0 : sts = 0 <;> simp [h0]

/-- The branch `;` when `command_lines` holds a command. -/
theorem branch_semi_ready (env : Env) (vp : List CStr) (st : PState) (w : CStr)
    (hw : first_word st.command_lines = some w) :
    branch_semi env vp st =
      match (get_Exe_Path env w vp).1 with
      | none =>
        ({ st with exe_path := some [], cmd_sts := 1
                   skip_next := if st.skip_next = 1 then 0 else st.skip_next
                   command_lines := clear_lines st.command_lines st.cmd_pos
                   cmd_pos := 0
                   trace := st.trace ++ (get_Exe_Path env w vp).2 }, Flow.next)
      | some p =>
        if st.skip_next ≠ 1 then
          match (run_Command env p (argv_of st.command_lines)).1 with
          | none =>
            ({ st with exe_path := some p
                       trace := st.trace ++ (get_Exe_Path env w vp).2
                         ++ (run_Command env p (argv_of st.command_lines)).2 }, Flow.exit)
          | some sts =>
            ({ st with exe_path := some [], cmd_sts := sts
                       command_lines := clear_lines st.command_lines st.cmd_pos
                       cmd_pos := 0
                       trace := st.trace ++ (get_Exe_Path env w vp).2
                         ++ (run_Command env p (argv_of st.command_lines)).2 }, Flow.next)
        else
          ({ st with exe_path := some [], cmd_sts := 1, skip_next := 0
                     command_lines := clear_lines st.command_lines st.cmd_pos
                     cmd_pos := 0
                     trace := st.trace ++ (get_Exe_Path env w vp).2 }, Flow.next) := by
  unfold branch_semi
  simp only [hw]
  cases hg : (get_Exe_Path env w vp).1 with
  | none => simp
  | some p =>
    by_cases h1 : st.skip_next = 1
    · simp [h1]
    · simp only [ne_eq, h1, not_false_eq_true, if_true, if_false]
      rcases hr : run_Command env p (argv_of st.command_lines) with ⟨_ | sts, evs⟩ <;> simp

/-- The branch `||` when `command_lines` holds a command and no skip is
pending. -/
theorem branch_or_ready (env : Env) (vp : List CStr) (st : PState) (w : CStr)
    (hw : first_word st.command_lines = some w) (hs : st.skip_next = 0) :
    branch_or env vp st =
      match (get_Exe_Path env w vp).1 with
      | none =>
        ({ st with exe_path := some [], cmd_sts := 1, cmd_pos := 0
                   trace := st.trace ++ (get_Exe_Path env w vp).2 }, Flow.next)
      | some p =>
        match (run_Command env p (argv_of st.command_lines)).1 with
        | none =>
          ({ st with exe_path := some p, cmd_sts := 1
                     trace := st.trace ++ (get_Exe_Path env w vp).2
                       ++ (run_Command env p (argv_of st.command_lines)).2 }, Flow.exit)
        | some sts =>
          ({ st with exe_path := some [], cmd_sts := sts, cmd_pos := 0
                     skip_next := if sts = 0 then 1 else 0
                     trace := st.trace ++ (get_Exe_Path env w vp).2
                       ++ (run_Command env p (argv_of st.command_lines)).2 }, Flow.next) := by
  unfold branch_or
  simp only [hw, hs]
  cases hg : (get_Exe_Path env w vp).1 with
  | none => simp
  | some p =>
    simp only [ne_eq, zero_ne_one, not_false_eq_true, if_true]
    rcases hr : run_Command env p (argv_of st.command_lines) with ⟨_ | sts, evs⟩ <;> simp

/-! ## Operator tokens -/

theorem parse_step_semi (env : Env) (vp : List CStr) (st : PState) :
    parse_step env vp st ";".toList = branch_semi env vp st := by
  simp [parse_step]

theorem parse_step_and (env : Env) (vp : List CStr) (st : PState) :
    parse_step env vp st "&&".toList = branch_and env vp st := by
  simp [parse_step]

theorem parse_step_or (env : Env) (vp : List CStr) (st : PState) :
    parse_step env vp st "||".toList = branch_or env vp st := by
  simp [parse_step]

/-! ## Claim C1 -/

/-- Claim C1: for the tokens `a1..an && b1..bm ;` with plain words and `b1`
resolvable, `parse_arguments` invokes the executor for `b` exactly when `a`
resolved and its executor call returned status `0`.  The executor calls are:
none when `a` is not found; the call for `a` alone when `a` does not return
`0`; the call for `a` followed by the call for `b` when `a` returns `0`. -/
theorem and_runs_right_iff_left_succeeds (env : Env) (vp : List CStr)
    (a1 : CStr) (as : List CStr) (b1 : CStr) (bs : List CStr) (pb : CStr)
    (ha : ∀ w ∈ a1 :: as, is_op w = false) (hb : ∀ w ∈ b1 :: bs, is_op w = false)
    (hres : (get_Exe_Path env b1 vp).1 = some pb) :
    execs (parse_arguments env
        ((a1 :: as) ++ ["&&".toList] ++ (b1 :: bs) ++ [";".toList]) vp).1.trace =
      match (get_Exe_Path env a1 vp).1 with
      | none => []
      | some pa =>
        (pa, a1 :: as) ::
          (if (run_Command env pa (a1 :: as)).1 = some 0 then [(pb, b1 :: bs)] else []) := by
  have htoks : (a1 :: as) ++ ["&&".toList] ++ (b1 :: bs) ++ [";".toList]
      = (a1 :: as) ++ ("&&".toList :: ((b1 :: bs) ++ [";".toList])) := by simp
  unfold parse_arguments
  rw [htoks, parse_loop_words env vp _ as a1 init_state ha (by simp [init_state])]
  have hstep := parse_step_and env vp
    { init_state with
      command_lines := init_state.command_lines.take init_state.cmd_pos
        ++ (a1 :: as).map some ++ [none]
      cmd_pos := init_state.cmd_pos + (a1 :: as).length }
  rw [branch_and_ready env vp _ a1 (by simp [init_state, first_word]) (by simp [init_state])]
    at hstep
  have hargv : argv_of (List.take init_state.cmd_pos init_state.command_lines
      ++ List.map some (a1 :: as) ++ [none]) = a1 :: as := by
    simpa [init_state] using argv_of_words (a1 :: as)
  simp only [hargv] at hstep
  cases hg : (get_Exe_Path env a1 vp).1 with
  | none =>
    simp only [hg] at hstep
    rw [parse_loop_stop env vp _ _ _ _ Flow.brk (by decide) hstep]
    simp [init_state, execs_get_Exe_Path]
  | some pa =>
    simp only [hg] at hstep
    cases hr : (run_Command env pa (a1 :: as)).1 with
    | none =>
      simp only [hr] at hstep
      rw [parse_loop_stop env vp _ _ _ _ Flow.exit (by decide) hstep]
      simp [init_state, execs_append, execs_get_Exe_Path, execs_run_Command, hr]
    | some sts =>
      simp only [hr] at hstep
      by_cases h0 : sts = 0
      · subst h0
        simp only [ne_eq, not_true_eq_false, if_false] at hstep
        rw [parse_loop_next env vp _ _ _ _ hstep]
        rw [parse_loop_words env vp _ bs b1 _ hb (by simp)]
        have hstep2 := parse_step_semi env vp
          { ({ init_state with
                command_lines := init_state.command_lines.take init_state.cmd_pos
                  ++ (a1 :: as).map some ++ [none]
                cmd_pos := 0
                exe_path := some []
                cmd_sts := 0
                trace := init_state.trace ++ (get_Exe_Path env a1 vp).2
                         ++ (run_Command env pa (a1 :: as)).2 } : PState) with
            command_lines := [] ++ (b1 :: bs).map some ++ [none]
            cmd_pos := 0 + (b1 :: bs).length }
        rw [branch_semi_ready env vp _ b1 (by simp [first_word])] at hstep2
        simp only [hres, init_state] at hstep2
        have hargv2 : argv_of ([] ++ List.map some (b1 :: bs) ++ [none]) = b1 :: bs := by
          simpa using argv_of_words (b1 :: bs)
        simp only [hargv2] at hstep2
        cases hr2 : (run_Command env pb (b1 :: bs)).1 with
        | none =>
          simp only [hr2] at hstep2
          simp only [init_state, List.take_zero]
          rw [parse_loop_stop env vp _ _ _ _ Flow.exit (by decide) (by simpa using hstep2)]
          simp [execs_append, execs_get_Exe_Path, execs_run_Command, hr]
        | some sts2 =>
          simp only [hr2] at hstep2
          simp only [init_state, List.take_zero]
          rw [parse_loop_next env vp _ _ _ _ (by simpa using hstep2)]
          simp [parse_loop, execs_append, execs_get_Exe_Path, execs_run_Command, hr]
      · simp only [ne_eq, h0, not_false_eq_true, if_true] at hstep
        rw [parse_loop_stop env vp _ _ _ _ Flow.brk (by decide) hstep]
        simp [init_state, execs_append, execs_get_Exe_Path, execs_run_Command, hr, h0]


/-- Witness for claim C1 in the concrete environment, with `a` succeeding. -/
theorem and_runs_right_iff_left_succeeds_witness :
    (∀ w ∈ ["a".toList], is_op w = false) ∧ (∀ w ∈ ["b".toList], is_op w = false) ∧
    (get_Exe_Path (demo_env 0) "b".toList demo_paths).1 = some "/bin/b".toList ∧
    execs (parse_arguments (demo_env 0)
        (["a".toList] ++ ["&&".toList] ++ ["b".toList] ++ [";".toList]) demo_paths).1.trace =
      match (get_Exe_Path (demo_env 0) "a".toList demo_paths).1 with
      | none => []
      | some pa =>
        (pa, ["a".toList]) ::
          (if (run_Command (demo_env 0) pa ["a".toList]).1 = some 0
            then [("/bin/b".toList, ["b".toList])] else []) :=
  ⟨by decide, by decide, by decide,
    and_runs_right_iff_left_succeeds (demo_env 0) demo_paths "a".toList [] "b".toList []
      "/bin/b".toList (by decide) (by decide) (by decide)⟩

/-! ## Claim C3 -/

/-- Claim C3: for the tokens `a1..an || b1..bm ;` with plain words and `b1`
resolvable, `parse_arguments` invokes the executor for `b` exactly when `a`
has a non-zero status, a command that is not found counting as non-zero.  The
executor calls are: the call for `b` alone when `a` is not found; the call for
`a` alone when `a` returns `0`; the call for `a` followed by the call for `b`
when `a` returns a non-zero status.  (When `fork` fails for `a` the process
ends inside `run_Command`, after the call for `a`.) -/
theorem or_runs_right_iff_left_fails (env : Env) (vp : List CStr)
    (a1 : CStr) (as : List CStr) (b1 : CStr) (bs : List CStr) (pb : CStr)
    (ha : ∀ w ∈ a1 :: as, is_op w = false) (hb : ∀ w ∈ b1 :: bs, is_op w = false)
    (hres : (get_Exe_Path env b1 vp).1 = some pb) :
    execs (parse_arguments env
        ((a1 :: as) ++ ["||".toList] ++ (b1 :: bs) ++ [";".toList]) vp).1.trace =
      match (get_Exe_Path env a1 vp).1 with
      | none => [(pb, b1 :: bs)]
      | some pa =>
        (pa, a1 :: as) ::
          (match (run_Command env pa (a1 :: as)).1 with
           | none => []
           | some sts => if sts = 0 then [] else [(pb, b1 :: bs)]) := by
  have htoks : (a1 :: as) ++ ["||".toList] ++ (b1 :: bs) ++ [";".toList]
      = (a1 :: as) ++ ("||".toList :: ((b1 :: bs) ++ [";".toList])) := by simp
  have hargv : argv_of (List.take init_state.cmd_pos init_state.command_lines
      ++ List.map some (a1 :: as) ++ [none]) = a1 :: as := by
    simpa [init_state] using argv_of_words (a1 :: as)
  have hargv2 : argv_of ([] ++ List.map some (b1 :: bs) ++ [none]) = b1 :: bs := by
    simpa using argv_of_words (b1 :: bs)
  unfold parse_arguments
  rw [htoks, parse_loop_words env vp _ as a1 init_state ha (by simp [init_state])]
  have hstep := parse_step_or env vp
    { init_state with
      command_lines := init_state.command_lines.take init_state.cmd_pos
        ++ (a1 :: as).map some ++ [none]
      cmd_pos := init_state.cmd_pos + (a1 :: as).length }
  rw [branch_or_ready env vp _ a1 (by simp [init_state, first_word]) (by simp [init_state])]
    at hstep
  simp only [hargv] at hstep
  cases hg : (get_Exe_Path env a1 vp).1 with
  | none =>
    simp only [hg] at hstep
    rw [parse_loop_next env vp _ _ _ _ hstep]
    rw [parse_loop_words env vp _ bs b1 _ hb (by simp)]
    have hstep2 := parse_step_semi env vp
      { ({ init_state with
            command_lines := init_state.command_lines.take init_state.cmd_pos
              ++ (a1 :: as).map some ++ [none]
            cmd_pos := 0
            exe_path := some []
            cmd_sts := 1
            trace := init_state.trace ++ (get_Exe_Path env a1 vp).2 } : PState) with
        command_lines := [] ++ (b1 :: bs).map some ++ [none]
        cmd_pos := 0 + (b1 :: bs).length }
    rw [branch_semi_ready env vp _ b1 (by simp [first_word])] at hstep2
    simp only [hres, init_state, hargv2] at hstep2
    simp only [init_state, List.take_zero]
    cases hr2 : (run_Command env pb (b1 :: bs)).1 with
    | none =>
      simp only [hr2] at hstep2
      rw [parse_loop_stop env vp _ _ _ _ Flow.exit (by decide) (by simpa using hstep2)]
      simp [execs_append, execs_get_Exe_Path, execs_run_Command]
    | some sts2 =>
      simp only [hr2] at hstep2
      rw [parse_loop_next env vp _ _ _ _ (by simpa using hstep2)]
      simp [parse_loop, execs_append, execs_get_Exe_Path, execs_run_Command]
  | some pa =>
    simp only [hg] at hstep
    cases hr : (run_Command env pa (a1 :: as)).1 with
    | none =>
      simp only [hr] at hstep
      rw [parse_loop_stop env vp _ _ _ _ Flow.exit (by decide) hstep]
      simp [init_state, execs_append, execs_get_Exe_Path, execs_run_Command, hr]
    | some sts =>
      simp only [hr] at hstep
      rw [parse_loop_next env vp _ _ _ _ hstep]
      rw [parse_loop_words env vp _ bs b1 _ hb (by simp)]
      have hstep2 := parse_step_semi env vp
        { ({ init_state with
              command_lines := init_state.command_lines.take init_state.cmd_pos
                ++ (a1 :: as).map some ++ [none]
              cmd_pos := 0
              exe_path := some []
              cmd_sts := sts
              skip_next := if sts = 0 then 1 else 0
              trace := init_state.trace ++ (get_Exe_Path env a1 vp).2
                       ++ (run_Command env pa (a1 :: as)).2 } : PState) with
          command_lines := [] ++ (b1 :: bs).map some ++ [none]
          cmd_pos := 0 + (b1 :: bs).length }
      rw [branch_semi_ready env vp _ b1 (by simp [first_word])] at hstep2
      simp only [hres, init_state, hargv2] at hstep2
      simp only [init_state, List.take_zero]
      by_cases h0 : sts = 0
      · subst h0
        simp only [if_true, ne_eq, not_true_eq_false, if_false] at hstep2
        rw [parse_loop_next env vp _ _ _ _ (by simpa using hstep2)]
        simp [parse_loop, execs_append, execs_get_Exe_Path, execs_run_Command, hr]
      · simp only [h0, if_false, ne_eq, zero_ne_one, not_false_eq_true, if_true] at hstep2
        cases hr2 : (run_Command env pb (b1 :: bs)).1 with
        | none =>
          simp only [hr2] at hstep2
          rw [parse_loop_stop env vp _ _ _ _ Flow.exit (by decide)
            (by simpa [h0] using hstep2)]
          simp [execs_append, execs_get_Exe_Path, execs_run_Command, hr, h0]
        | some sts2 =>
          simp only [hr2] at hstep2
          rw [parse_loop_next env vp _ _ _ _ (by simpa [h0] using hstep2)]
          simp [parse_loop, execs_append, execs_get_Exe_Path, execs_run_Command, hr, h0]

/-- Witness for claim C3 in the concrete environment, with `a` failing. -/
theorem or_runs_right_iff_left_fails_witness :
    (∀ w ∈ ["a".toList], is_op w = false) ∧ (∀ w ∈ ["b".toList], is_op w = false) ∧
    (get_Exe_Path (demo_env 1) "b".toList demo_paths).1 = some "/bin/b".toList ∧
    execs (parse_arguments (demo_env 1)
        (["a".toList] ++ ["||".toList] ++ ["b".toList] ++ [";".toList]) demo_paths).1.trace =
      match (get_Exe_Path (demo_env 1) "a".toList demo_paths).1 with
      | none => [("/bin/b".toList, ["b".toList])]
      | some pa =>
        (pa, ["a".toList]) ::
          (match (run_Command (demo_env 1) pa ["a".toList]).1 with
           | none => []
           | some sts => if sts = 0 then [] else [("/bin/b".toList, ["b".toList])]) :=
  ⟨by decide, by decide, by decide,
    or_runs_right_iff_left_fails (demo_env 1) demo_paths "a".toList [] "b".toList []
      "/bin/b".toList (by decide) (by decide) (by decide)⟩

/-! ## Claim C4 -/

/-- Claim C4 fails on the code: with `a`, `b`, `c` resolvable and `a`
succeeding, the tokens `a || b || c ;` run `a` only.  The skipped command `b`
is ended by `||`, whose branch leaves `skip_next` set (it is still `1` after
the second `||`), so `c` is skipped as well, and not dispatched as the claim
says.  When `b` is ended by `;` or by `&&` the flag is cleared and `c` runs. -/
theorem skip_flag_survives_or :
    execs (parse_arguments (demo_env 0)
        ["a".toList, "||".toList, "b".toList, "||".toList, "c".toList, ";".toList]
        demo_paths).1.trace = [("/bin/a".toList, ["a".toList])] ∧
    (parse_arguments (demo_env 0)
        ["a".toList, "||".toList, "b".toList, "||".toList] demo_paths).1.skip_next = 1 ∧
    execs (parse_arguments (demo_env 0)
        ["a".toList, "||".toList, "b".toList, ";".toList, "c".toList, ";".toList]
        demo_paths).1.trace
      = [("/bin/a".toList, ["a".toList]), ("/bin/c".toList, ["c".toList])] ∧
    execs (parse_arguments (demo_env 0)
        ["a".toList, "||".toList, "b".toList, "&&".toList, "c".toList, ";".toList]
        demo_paths).1.trace
      = [("/bin/a".toList, ["a".toList]), ("/bin/c".toList, ["c".toList])] := by
  refine ⟨?_, ?_, ?_, ?_⟩ <;> decide

/-! ## Claim C7 -/

theorem search_paths_fst (env : Env) (command : CStr) (vp : List CStr) :
    (search_paths env command vp).1
      = (vp.map (fun p => p ++ command)).find? env.fileExists := by
  induction vp with
  | nil => rfl
  | cons p ps ih =>
    unfold search_paths
    by_cases h : env.fileExists (p ++ command) = true
    · simp [h]
    · simp [h, ih]

theorem written_search_paths (env : Env) (command : CStr) (vp : List CStr) (fd : Nat) :
    written fd (search_paths env command vp).2 = [] := by
  induction vp with
  | nil => rfl
  | cons p ps ih =>
    unfold search_paths
    split
    · rfl
    · simpa [written] using ih

theorem written_append (fd : Nat) (xs ys : List Event) :
    written fd (xs ++ ys) = written fd xs ++ written fd ys := by
  induction xs with
  | nil => rfl
  | cons e es ih =>
    cases e with
    | stat p => simpa [written] using ih
    | write fd1 t =>
      by_cases h : fd1 = fd <;> simp [written, h, ih]
    | exec p a => simpa [written] using ih

/-- Claim C7: `get_Exe_Path` returns the first candidate that exists in the
list `PWD/command, p1 command, .., pk command`; the result is NULL exactly
when no candidate exists; in that case the text written to the output is the
command followed by ` :COMMAND NOT FOUND` and a newline, and when a candidate
is found nothing is written to any descriptor. -/
theorem get_Exe_Path_first_existing (env : Env) (command : CStr) (vp : List CStr) :
    (get_Exe_Path env command vp).1 = (candidates env command vp).find? env.fileExists ∧
    ((get_Exe_Path env command vp).1 = none ↔
      ∀ c ∈ candidates env command vp, env.fileExists c = false) ∧
    (∀ fd, written fd (get_Exe_Path env command vp).2 =
      if (get_Exe_Path env command vp).1 = none ∧ fd = STDOUT
      then command ++ " :COMMAND NOT FOUND\n".toList else []) := by
  have hfst : (get_Exe_Path env command vp).1
      = (candidates env command vp).find? env.fileExists := by
    have h := search_paths_fst env command vp
    unfold get_Exe_Path candidates
    generalize env.PWD ++ "/".toList ++ command = pp
    by_cases hp : env.fileExists pp = true
    · simp [hp]
    · have hp1 : env.fileExists pp = false := by simpa using hp
      rcases hs : search_paths env command vp with ⟨_ | q, evs⟩
      · rw [hs] at h
        simp only [hp, if_false, List.find?_cons, hp1]
        exact h
      · rw [hs] at h
        simp only [hp, if_false, List.find?_cons, hp1]
        exact h
  refine ⟨hfst, ?_, ?_⟩
  · rw [hfst, List.find?_eq_none]
    constructor
    · intro h c hc
      simpa using h c hc
    · intro h c hc
      simp [h c hc]
  · intro fd
    have hw := written_search_paths env command vp fd
    unfold get_Exe_Path
    generalize env.PWD ++ "/".toList ++ command = pp
    generalize " :COMMAND NOT FOUND\n".toList = msg
    by_cases hp : env.fileExists pp = true
    · simp [hp, written]
    · rcases hs : search_paths env command vp with ⟨_ | q, evs⟩
      · rw [hs] at hw
        have hw1 : written fd evs = [] := hw
        have happ := written_append fd evs [Event.write STDOUT command, Event.write STDOUT msg]
        simp only [hp, if_false, true_and, List.cons_append, written]
        by_cases hfd : fd = STDOUT
        · subst hfd
          simp [written, happ, hw1]
        · have hfd1 : ¬ STDOUT = fd := fun h => hfd h.symm
          simp [written, hfd, hfd1, happ, hw1]
      · rw [hs] at hw
        simp only [hp, if_false]
        simpa [written] using hw

/-! ## Claims C8, C9 and C10 -/

/-- The tokens of a group that ends in a tab and a semicolon. -/
theorem tokenize_group (body : CStr) :
    tokenize_Arguments (body ++ "\t;".toList) = tokenize_Arguments body ++ [";".toList] := by
  have e : body ++ "\t;".toList = body ++ '\t' :: [';'] := rfl
  rw [tokenize_Arguments_eq, tokenize_Arguments_eq, e,
    split_nonempty_append (fun c => c == '\t') '\t' (by decide)]
  rw [split_nonempty_single (fun c => c == '\t') [';'] (by decide) (by decide)]
  rfl

/-- Claim C8: every command group returned by `split_Comm` is tokenised by
`tokenize_Arguments` into a non-empty list whose last token is `;`, and no
earlier token of the group contains the character `;`. -/
theorem split_Comm_group_ends_in_semicolon (input g : CStr) (hg : g ∈ split_Comm input) :
    tokenize_Arguments g ≠ [] ∧
    ∃ ts, tokenize_Arguments g = ts ++ [";".toList] ∧ ∀ t ∈ ts, ';' ∉ t := by
  unfold split_Comm at hg
  obtain ⟨tok, htok, rfl⟩ := List.mem_map.mp hg
  obtain ⟨-, hsemi, -⟩ := strtok_all_mem ';' input tok htok
  have h := tokenize_group tok
  refine ⟨by rw [h]; simp, tokenize_Arguments tok, h, ?_⟩
  intro t ht hin
  obtain ⟨-, -, hsub⟩ := strtok_all_mem '\t' tok t ht
  exact hsemi (hsub _ hin)

/-- Witness for claim C8: the first group of the line `a;b`. -/
theorem split_Comm_group_ends_in_semicolon_witness :
    "a\t;".toList ∈ split_Comm "a;b\t;".toList ∧
    (tokenize_Arguments "a\t;".toList ≠ [] ∧
      ∃ ts, tokenize_Arguments "a\t;".toList = ts ++ [";".toList] ∧ ∀ t ∈ ts, ';' ∉ t) :=
  ⟨by decide,
    split_Comm_group_ends_in_semicolon "a;b\t;".toList "a\t;".toList (by decide)⟩

/-- Claim C9: `tokenize_Arguments` returns the pieces of `s` between tabs, in
order, without the empty pieces; every token is non-empty and contains no
tab. -/
theorem tokenize_Arguments_spec (s : CStr) :
    tokenize_Arguments s = (s.splitOn '\t').filter (fun t => decide (t ≠ [])) ∧
    ∀ t ∈ tokenize_Arguments s, t ≠ [] ∧ '\t' ∉ t := by
  refine ⟨tokenize_Arguments_eq s, ?_⟩
  intro t ht
  obtain ⟨h1, h2, -⟩ := strtok_all_mem '\t' s t ht
  exact ⟨h1, h2⟩

/-- Claim C10: `get_Paths` returns, in order, the non-empty pieces of `PATH`
between colons, each followed by a slash; the empty `PATH` gives the empty
list, and a leading, a trailing or a repeated colon adds no entry. -/
theorem get_Paths_spec (PATH rest : CStr) :
    get_Paths PATH
      = ((PATH.splitOn ':').filter (fun t => decide (t ≠ []))).map (fun seg => seg ++ ['/']) ∧
    get_Paths [] = [] ∧
    get_Paths (':' :: PATH) = get_Paths PATH ∧
    get_Paths (PATH ++ [':']) = get_Paths PATH ∧
    get_Paths (PATH ++ ':' :: ':' :: rest) = get_Paths (PATH ++ ':' :: rest) := by
  refine ⟨get_Paths_eq PATH, by decide, ?_, ?_, ?_⟩
  · rw [get_Paths_eq, get_Paths_eq,
      split_nonempty_cons_delim (fun c => c == ':') ':' PATH (by decide)]
  · rw [get_Paths_eq, get_Paths_eq, split_nonempty_snoc (fun c => c == ':') ':' (by decide)]
  · rw [get_Paths_eq, get_Paths_eq,
      split_nonempty_append (fun c => c == ':') ':' (by decide),
      split_nonempty_append (fun c => c == ':') ':' (by decide),
      split_nonempty_cons_delim (fun c => c == ':') ':' rest (by decide)]

/-! ## From a line to its command groups -/

theorem get_Input_loop_line (ending : ReadEnd) (rest : List Char) :
    ∀ (line : List Char) (acc : CStr), '\n' ∉ line →
      get_Input_loop ending (line ++ '\n' :: rest) acc
        = InputResult.line (acc ++ line.map sanitize ++ "\t;".toList) rest := by
  intro line
  induction line with
  | nil => intro acc _; simp [get_Input_loop]
  | cons c cs ih =>
    intro acc h
    have hc : c ≠ '\n' := fun e => h (by simp [e])
    have hcs : '\n' ∉ cs := fun e => h (List.mem_cons_of_mem _ e)
    rw [List.cons_append, get_Input_loop, if_neg hc, ih _ hcs]
    simp

/-- The line `get_Input` returns for a stream that holds `line` and a newline. -/
theorem get_Input_line (line : List Char) (h : '\n' ∉ line) :
    get_Input (line ++ ['\n']) ReadEnd.eof
      = InputResult.line (line.map sanitize ++ "\t;".toList) [] := by
  unfold get_Input
  rw [get_Input_loop_line ReadEnd.eof [] line [] h]
  simp

theorem normalize_line (line : List Char) :
    normalize (line.map sanitize ++ "\t;".toList) = line.map delimited ++ "\t;".toList := by
  unfold normalize
  rw [List.map_append, List.map_map]
  have : "\t;".toList.map (fun c => if isspace c then '\t' else c) = "\t;".toList := by decide
  rw [this]
  rfl

theorem split_Comm_line (body : CStr) :
    split_Comm (body ++ "\t;".toList)
      = (split_nonempty (fun c => c == ';') (body ++ ['\t'])).map
          (fun t => t ++ "\t;".toList) := by
  have e : body ++ "\t;".toList = (body ++ ['\t']) ++ [';'] := by simp
  rw [split_Comm_eq, e, split_nonempty_snoc (fun c => c == ';') ';' (by decide)]

theorem command_groups_eq (line : List Char) (h : '\n' ∉ line) :
    command_groups line
      = (split_nonempty (fun c => c == ';') (line.map delimited ++ ['\t'])).map
          (fun t => t ++ "\t;".toList) := by
  unfold command_groups
  rw [get_Input_line line h]
  simp only []
  rw [normalize_line, split_Comm_line]

theorem interpret_line_eq (env : Env) (PATH : CStr) (line : List Char) (h : '\n' ∉ line) :
    interpret_line env PATH line = run_groups env (get_Paths PATH) (command_groups line) := by
  unfold interpret_line command_groups
  rw [get_Input_line line h]
  simp only []
  unfold parse_Input
  rw [if_neg (by simp)]

/-! ## Characters -/

theorem delimited_space (c : Char) (h : isspace c = true) : delimited c = '\t' := by
  unfold delimited
  by_cases hc : c.toNat < 32 ∨ c.toNat > 126
  · have hsan : sanitize c = '\t' := by unfold sanitize; rw [if_pos hc]
    rw [hsan]
    rfl
  · have hsan : sanitize c = c := by unfold sanitize; rw [if_neg hc]
    rw [hsan, h]
    rfl

theorem delimited_plain (c : Char) (hs : isspace c = false) (hp : plain_char c = true) :
    delimited c = c ∧ c ≠ '\t' := by
  have hne : c ≠ '\t' := by
    intro e
    rw [e] at hs
    exact absurd hs (by decide)
  unfold plain_char at hp
  simp only [hs, Bool.false_or, Bool.and_eq_true, decide_eq_true_eq] at hp
  obtain ⟨-, hp⟩ := hp
  have hsan : sanitize c = c := by
    unfold sanitize
    rw [if_neg (by omega)]
  unfold delimited
  rw [hsan, hs]
  exact ⟨rfl, hne⟩

theorem delimited_semicolon (c : Char) (h : delimited c = ';') : c = ';' := by
  unfold delimited at h
  by_cases hc : c.toNat < 32 ∨ c.toNat > 126
  · have hsan : sanitize c = '\t' := by unfold sanitize; rw [if_pos hc]
    rw [hsan] at h
    exact absurd h (by decide)
  · have hsan : sanitize c = c := by unfold sanitize; rw [if_neg hc]
    rw [hsan] at h
    split at h
    · exact absurd h (by decide)
    · exact h

theorem semicolon_not_mem_map (l : List Char) (h : ';' ∉ l) : ';' ∉ l.map delimited := by
  intro hm
  obtain ⟨c, hc, e⟩ := List.mem_map.mp hm
  exact h (delimited_semicolon c e ▸ hc)

theorem newline_not_mem (l : List Char) (hp : ∀ c ∈ l, plain_char c = true) : '\n' ∉ l := by
  intro h
  exact absurd (hp _ h) (by decide)

/-- On a line of whitespace and printable characters the tab-separated tokens
of the normalised line are the whitespace-separated words of the line. -/
theorem tokenize_map_delimited (l : List Char) (hp : ∀ c ∈ l, plain_char c = true) :
    tokenize_Arguments (l.map delimited) = words l := by
  rw [tokenize_Arguments_eq]
  unfold words split_nonempty
  congr 1
  induction l with
  | nil => rfl
  | cons c cs ih =>
    have ih1 := ih (fun x hx => hp x (List.mem_cons_of_mem _ hx))
    rw [List.map_cons, List.splitOnP_cons, List.splitOnP_cons, ih1]
    cases hs : isspace c with
    | true => simp [delimited_space c hs]
    | false =>
      obtain ⟨h1, h2⟩ := delimited_plain c hs (hp c (List.mem_cons_self _ _))
      simp [h1, h2]

/-! ## Command groups of a line -/

theorem not_semicolon_of_not_mem (l : List Char) (h : ';' ∉ l) :
    ∀ x ∈ l, (x == ';') = false := by
  intro x hx
  cases hb : x == ';' with
  | false => rfl
  | true =>
    have e : x = ';' := by simpa using hb
    exact absurd (e ▸ hx) h

/-- A line without `;` is one command group. -/
theorem command_groups_one (line : List Char) (hn : '\n' ∉ line) (hs : ';' ∉ line) :
    command_groups line = [line.map delimited ++ ['\t'] ++ "\t;".toList] := by
  rw [command_groups_eq line hn]
  have h1 : ';' ∉ line.map delimited ++ ['\t'] := by
    intro hm
    rcases List.mem_append.mp hm with hm | hm
    · exact semicolon_not_mem_map line hs hm
    · exact absurd hm (by decide)
  rw [split_nonempty_single (fun c => c == ';') _ (by simp)
    (not_semicolon_of_not_mem _ h1)]
  rfl

/-- A line with one `;`, and something before it, is two command groups. -/
theorem command_groups_two (la lb : List Char) (hna : '\n' ∉ la) (hnb : '\n' ∉ lb)
    (hsa : ';' ∉ la) (hsb : ';' ∉ lb) (hne : la ≠ []) :
    command_groups (la ++ ';' :: lb)
      = [la.map delimited ++ "\t;".toList,
         lb.map delimited ++ ['\t'] ++ "\t;".toList] := by
  have hn : '\n' ∉ la ++ ';' :: lb := by
    intro hm
    rcases List.mem_append.mp hm with hm | hm
    · exact hna hm
    · rcases List.mem_cons.mp hm with hm | hm
      · exact absurd hm (by decide)
      · exact hnb hm
  rw [command_groups_eq _ hn]
  have e : (la ++ ';' :: lb).map delimited ++ ['\t']
      = la.map delimited ++ ';' :: (lb.map delimited ++ ['\t']) := by
    have : delimited ';' = ';' := by decide
    simp [this]
  have h1 : ';' ∉ lb.map delimited ++ ['\t'] := by
    intro hm
    rcases List.mem_append.mp hm with hm | hm
    · exact semicolon_not_mem_map lb hsb hm
    · exact absurd hm (by decide)
  rw [e, split_nonempty_append (fun c => c == ';') ';' (by decide),
    split_nonempty_single (fun c => c == ';') (la.map delimited) (by simpa using hne)
      (not_semicolon_of_not_mem _ (semicolon_not_mem_map la hsa)),
    split_nonempty_single (fun c => c == ';') _ (by simp) (not_semicolon_of_not_mem _ h1)]
  rfl

/-- The tokens of the group made from the piece `l` of the line. -/
theorem tokenize_piece (l : List Char) (hp : ∀ c ∈ l, plain_char c = true) :
    tokenize_Arguments (l.map delimited ++ "\t;".toList) = words l ++ [";".toList] := by
  rw [tokenize_group, tokenize_map_delimited l hp]

/-- The tokens of the group made from the last piece `l` of the line. -/
theorem tokenize_last_piece (l : List Char) (hp : ∀ c ∈ l, plain_char c = true) :
    tokenize_Arguments (l.map delimited ++ ['\t'] ++ "\t;".toList)
      = words l ++ [";".toList] := by
  rw [tokenize_group, tokenize_Arguments_eq,
    split_nonempty_snoc (fun c => c == '\t') '\t' (by decide),
    ← tokenize_Arguments_eq, tokenize_map_delimited l hp]

/-! ## One command followed by `;` -/

/-- The trace and the way out of `parse_arguments` on `w ws.. ;`. -/
theorem parse_arguments_single (env : Env) (vp : List CStr) (w : CStr) (ws : List CStr)
    (hw : ∀ x ∈ w :: ws, is_op x = false) :
    (parse_arguments env ((w :: ws) ++ [";".toList]) vp).1.trace
        = (get_Exe_Path env w vp).2 ++
          (match (get_Exe_Path env w vp).1 with
           | none => []
           | some p => (run_Command env p (w :: ws)).2) ∧
    (parse_arguments env ((w :: ws) ++ [";".toList]) vp).2
        = (match (get_Exe_Path env w vp).1 with
           | none => Flow.next
           | some p => if (run_Command env p (w :: ws)).1 = none then Flow.exit
                       else Flow.next) := by
  have hargv : argv_of (List.take init_state.cmd_pos init_state.command_lines
      ++ List.map some (w :: ws) ++ [none]) = w :: ws := by
    simpa [init_state] using argv_of_words (w :: ws)
  unfold parse_arguments
  rw [parse_loop_words env vp _ ws w init_state hw (by simp [init_state])]
  have hstep := parse_step_semi env vp
    { init_state with
      command_lines := init_state.command_lines.take init_state.cmd_pos
        ++ (w :: ws).map some ++ [none]
      cmd_pos := init_state.cmd_pos + (w :: ws).length }
  rw [branch_semi_ready env vp _ w (by simp [init_state, first_word])] at hstep
  simp only [hargv] at hstep
  cases hg : (get_Exe_Path env w vp).1 with
  | none =>
    simp only [hg] at hstep
    rw [parse_loop_next env vp _ _ _ _ hstep]
    simp [parse_loop, init_state]
  | some p =>
    simp only [hg] at hstep
    have hsk : init_state.skip_next ≠ 1 := by decide
    simp only [ne_eq, hsk, not_false_eq_true, if_true] at hstep
    cases hr : (run_Command env p (w :: ws)).1 with
    | none =>
      simp only [hr] at hstep
      rw [parse_loop_stop env vp _ _ _ _ Flow.exit (by decide) hstep]
      simp [init_state, hr]
    | some sts =>
      simp only [hr] at hstep
      rw [parse_loop_next env vp _ _ _ _ hstep]
      simp [parse_loop, init_state, hr]

/-- On `a.. && ..` with `a` found and returning a non-zero status the loop is
left by `break` right after the call for `a`. -/
theorem parse_arguments_and_fails (env : Env) (vp : List CStr) (a1 : CStr) (as : List CStr)
    (rest : List CStr) (pa : CStr) (sts : Int)
    (ha : ∀ x ∈ a1 :: as, is_op x = false)
    (hg : (get_Exe_Path env a1 vp).1 = some pa)
    (hr : (run_Command env pa (a1 :: as)).1 = some sts) (h0 : sts ≠ 0) :
    (parse_arguments env ((a1 :: as) ++ "&&".toList :: rest) vp).1.trace
        = (get_Exe_Path env a1 vp).2 ++ (run_Command env pa (a1 :: as)).2 ∧
    (parse_arguments env ((a1 :: as) ++ "&&".toList :: rest) vp).2 = Flow.brk := by
  have hargv : argv_of (List.take init_state.cmd_pos init_state.command_lines
      ++ List.map some (a1 :: as) ++ [none]) = a1 :: as := by
    simpa [init_state] using argv_of_words (a1 :: as)
  unfold parse_arguments
  rw [parse_loop_words env vp _ as a1 init_state ha (by simp [init_state])]
  have hstep := parse_step_and env vp
    { init_state with
      command_lines := init_state.command_lines.take init_state.cmd_pos
        ++ (a1 :: as).map some ++ [none]
      cmd_pos := init_state.cmd_pos + (a1 :: as).length }
  rw [branch_and_ready env vp _ a1 (by simp [init_state, first_word]) (by simp [init_state])]
    at hstep
  simp only [hargv, hg, hr, ne_eq, h0, not_false_eq_true, if_true] at hstep
  rw [parse_loop_stop env vp _ _ _ _ Flow.brk (by decide) hstep]
  simp [init_state]

/-! ## The loop over the groups -/

theorem run_groups_alive (env : Env) (vp : List CStr) (g : CStr) (gs : List CStr)
    (h : (parse_arguments env (tokenize_Arguments g) vp).2 ≠ Flow.exit) :
    (run_groups env vp (g :: gs)).1
      = (parse_arguments env (tokenize_Arguments g) vp).1.trace ++ (run_groups env vp gs).1 := by
  conv_lhs => unfold run_groups
  rcases hp : parse_arguments env (tokenize_Arguments g) vp with ⟨st, fl⟩
  rw [hp] at h
  cases fl with
  | exit => exact absurd rfl h
  | next => rfl
  | brk => rfl

theorem run_groups_last (env : Env) (vp : List CStr) (g : CStr) :
    (run_groups env vp [g]).1 = (parse_arguments env (tokenize_Arguments g) vp).1.trace := by
  unfold run_groups
  rcases hp : parse_arguments env (tokenize_Arguments g) vp with ⟨st, fl⟩
  cases fl <;> simp [run_groups]

theorem run_Command_none (env : Env) (p : CStr) (argv : List CStr) :
    (run_Command env p argv).1 = none ↔ env.child p argv = ChildOutcome.forkFailed := by
  unfold run_Command
  cases h : env.child p argv <;> simp

theorem parse_loop_append (env : Env) (vp : List CStr) (ys : List CStr) :
    ∀ (xs : List CStr) (st : PState), (parse_loop env vp xs st).2 = Flow.next →
      parse_loop env vp (xs ++ ys) st = parse_loop env vp ys (parse_loop env vp xs st).1 := by
  intro xs
  induction xs with
  | nil => intro st _; rfl
  | cons x xs ih =>
    intro st h
    rcases hs : parse_step env vp st x with ⟨st1, fl⟩
    cases fl with
    | next =>
      rw [List.cons_append, parse_loop_next env vp st st1 x _ hs,
        parse_loop_next env vp st st1 x _ hs]
      rw [parse_loop_next env vp st st1 x _ hs] at h
      exact ih st1 h
    | brk =>
      rw [parse_loop_stop env vp st st1 x _ Flow.brk (by decide) hs] at h
      exact absurd h (by simp)
    | exit =>
      rw [parse_loop_stop env vp st st1 x _ Flow.exit (by decide) hs] at h
      exact absurd h (by simp)

/-! ## Claim C5 -/

/-- Claim C5: a line `a ; b` whose two sides are non-empty sequences of plain
words with resolvable first words makes the executor run `a` once and then `b`
once, whatever status `a` returns.  The line is any `la ; lb` in which `la` and
`lb` hold no `;`, only whitespace and printable characters, and have the words
`a` and `b`. -/
theorem semicolon_runs_both (env : Env) (PATH : CStr) (la lb : List Char)
    (a1 : CStr) (as : List CStr) (b1 : CStr) (bs : List CStr) (pa pb : CStr)
    (hpa : ∀ c ∈ la, plain_char c = true) (hpb : ∀ c ∈ lb, plain_char c = true)
    (hsa : ';' ∉ la) (hsb : ';' ∉ lb)
    (hwa : words la = a1 :: as) (hwb : words lb = b1 :: bs)
    (hoa : ∀ x ∈ a1 :: as, is_op x = false) (hob : ∀ x ∈ b1 :: bs, is_op x = false)
    (hga : (get_Exe_Path env a1 (get_Paths PATH)).1 = some pa)
    (hgb : (get_Exe_Path env b1 (get_Paths PATH)).1 = some pb)
    (hfa : env.child pa (a1 :: as) ≠ ChildOutcome.forkFailed) :
    execs (interpret_line env PATH (la ++ ';' :: lb)).1
      = [(pa, a1 :: as), (pb, b1 :: bs)] := by
  have hna := newline_not_mem la hpa
  have hnb := newline_not_mem lb hpb
  have hne : la ≠ [] := by
    intro e
    rw [e] at hwa
    exact absurd hwa (by simp [words, split_nonempty_nil])
  have hn : '\n' ∉ la ++ ';' :: lb := by
    intro hm
    rcases List.mem_append.mp hm with hm | hm
    · exact hna hm
    · rcases List.mem_cons.mp hm with hm | hm
      · exact absurd hm (by decide)
      · exact hnb hm
  have hra : (run_Command env pa (a1 :: as)).1 ≠ none :=
    fun h => hfa ((run_Command_none env pa (a1 :: as)).mp h)
  obtain ⟨hta, hfl⟩ := parse_arguments_single env (get_Paths PATH) a1 as hoa
  obtain ⟨htb, -⟩ := parse_arguments_single env (get_Paths PATH) b1 bs hob
  rw [hga] at hta hfl
  rw [hgb] at htb
  simp only [hra, if_false] at hfl
  rw [interpret_line_eq env PATH _ hn, command_groups_two la lb hna hnb hsa hsb hne,
    run_groups_alive env _ _ _ (by rw [tokenize_piece la hpa, hwa, hfl]; decide),
    run_groups_last, tokenize_piece la hpa, tokenize_last_piece lb hpb, hwa, hwb, hta, htb]
  simp [execs_append, execs_get_Exe_Path, execs_run_Command]

/-- Witness for claim C5: the line `a ; b` with `a` failing. -/
theorem semicolon_runs_both_witness :
    (∀ c ∈ "a ".toList, plain_char c = true) ∧ (∀ c ∈ " b".toList, plain_char c = true) ∧
    ';' ∉ "a ".toList ∧ ';' ∉ " b".toList ∧
    words "a ".toList = ["a".toList] ∧ words " b".toList = ["b".toList] ∧
    (∀ x ∈ ["a".toList], is_op x = false) ∧ (∀ x ∈ ["b".toList], is_op x = false) ∧
    (get_Exe_Path (demo_env 1) "a".toList (get_Paths demo_PATH)).1 = some "/bin/a".toList ∧
    (get_Exe_Path (demo_env 1) "b".toList (get_Paths demo_PATH)).1 = some "/bin/b".toList ∧
    (demo_env 1).child "/bin/a".toList ["a".toList] ≠ ChildOutcome.forkFailed ∧
    execs (interpret_line (demo_env 1) demo_PATH ("a ".toList ++ ';' :: " b".toList)).1
      = [("/bin/a".toList, ["a".toList]), ("/bin/b".toList, ["b".toList])] :=
  ⟨by decide, by decide, by decide, by decide, by decide, by decide, by decide, by decide,
    by decide, by decide, by decide,
    semicolon_runs_both (demo_env 1) demo_PATH "a ".toList " b".toList "a".toList []
      "b".toList [] "/bin/a".toList "/bin/b".toList (by decide) (by decide) (by decide)
      (by decide) (by decide) (by decide) (by decide) (by decide) (by decide) (by decide)
      (by decide)⟩

/-! ## Claim C2 -/

/-- Claim C2 fails on the code: on the line `a && b ; c` with `a`, `b`, `c`
resolvable and `a` returning status `1`, the command `b` is not run but the
trailing `c` is.  The line is cut at `;` by `split_Comm` before
`parse_arguments` sees it, and `c` is a group of its own. -/
theorem trailing_group_runs_after_failed_and :
    (get_Exe_Path (demo_env 1) "a".toList (get_Paths demo_PATH)).1 = some "/bin/a".toList ∧
    (get_Exe_Path (demo_env 1) "b".toList (get_Paths demo_PATH)).1 = some "/bin/b".toList ∧
    (get_Exe_Path (demo_env 1) "c".toList (get_Paths demo_PATH)).1 = some "/bin/c".toList ∧
    (run_Command (demo_env 1) "/bin/a".toList ["a".toList]).1 = some 1 ∧
    command_groups "a && b ; c".toList = ["a\t&&\tb\t\t;".toList, "\tc\t\t;".toList] ∧
    execs (interpret_line (demo_env 1) demo_PATH "a && b ; c".toList).1
      = [("/bin/a".toList, ["a".toList]), ("/bin/c".toList, ["c".toList])] := by
  refine ⟨?_, ?_, ?_, ?_, ?_, ?_⟩ <;> decide

/-- Claim C2 as amended: on a line `a && b ; c` with `a` and `c` resolvable and
`a` returning a non-zero status, processing of the group of `a` stops, so `b`
is not run; the trailing `c`, a group of its own, is run.  The executor calls
are the call for `a` followed by the call for `c`. -/
theorem and_failure_ends_its_group_only (env : Env) (PATH : CStr) (la lc : List Char)
    (a1 : CStr) (as : List CStr) (b : List CStr) (c1 : CStr) (cs : List CStr)
    (pa pc : CStr) (sts : Int)
    (hpa : ∀ c ∈ la, plain_char c = true) (hpc : ∀ c ∈ lc, plain_char c = true)
    (hsa : ';' ∉ la) (hsc : ';' ∉ lc)
    (hwa : words la = (a1 :: as) ++ "&&".toList :: b) (hwc : words lc = c1 :: cs)
    (hoa : ∀ x ∈ a1 :: as, is_op x = false) (hoc : ∀ x ∈ c1 :: cs, is_op x = false)
    (hga : (get_Exe_Path env a1 (get_Paths PATH)).1 = some pa)
    (hgc : (get_Exe_Path env c1 (get_Paths PATH)).1 = some pc)
    (hr : (run_Command env pa (a1 :: as)).1 = some sts) (h0 : sts ≠ 0) :
    execs (interpret_line env PATH (la ++ ';' :: lc)).1
      = [(pa, a1 :: as), (pc, c1 :: cs)] := by
  have hna := newline_not_mem la hpa
  have hnc := newline_not_mem lc hpc
  have hne : la ≠ [] := by
    intro e
    rw [e] at hwa
    exact absurd hwa (by simp [words, split_nonempty_nil])
  have hn : '\n' ∉ la ++ ';' :: lc := by
    intro hm
    rcases List.mem_append.mp hm with hm | hm
    · exact hna hm
    · rcases List.mem_cons.mp hm with hm | hm
      · exact absurd hm (by decide)
      · exact hnc hm
  obtain ⟨hta, hfl⟩ := parse_arguments_and_fails env (get_Paths PATH) a1 as
    (b ++ [";".toList]) pa sts hoa hga hr h0
  obtain ⟨htc, -⟩ := parse_arguments_single env (get_Paths PATH) c1 cs hoc
  rw [hgc] at htc
  have etok : (a1 :: as) ++ "&&".toList :: b ++ [";".toList]
      = (a1 :: as) ++ "&&".toList :: (b ++ [";".toList]) := by simp
  rw [interpret_line_eq env PATH _ hn, command_groups_two la lc hna hnc hsa hsc hne,
    run_groups_alive env _ _ _ (by rw [tokenize_piece la hpa, hwa, etok, hfl]; decide),
    run_groups_last, tokenize_piece la hpa, tokenize_last_piece lc hpc, hwa, hwc, etok,
    hta, htc]
  simp [execs_append, execs_get_Exe_Path, execs_run_Command]

/-- Witness for the amended claim C2: the line `a && b ; c` with `a` failing. -/
theorem and_failure_ends_its_group_only_witness :
    (∀ c ∈ "a && b ".toList, plain_char c = true) ∧
    (∀ c ∈ " c".toList, plain_char c = true) ∧
    ';' ∉ "a && b ".toList ∧ ';' ∉ " c".toList ∧
    words "a && b ".toList = ["a".toList] ++ "&&".toList :: ["b".toList] ∧
    words " c".toList = ["c".toList] ∧
    (∀ x ∈ ["a".toList], is_op x = false) ∧ (∀ x ∈ ["c".toList], is_op x = false) ∧
    (get_Exe_Path (demo_env 1) "a".toList (get_Paths demo_PATH)).1 = some "/bin/a".toList ∧
    (get_Exe_Path (demo_env 1) "c".toList (get_Paths demo_PATH)).1 = some "/bin/c".toList ∧
    (run_Command (demo_env 1) "/bin/a".toList ["a".toList]).1 = some 1 ∧ (1 : Int) ≠ 0 ∧
    execs (interpret_line (demo_env 1) demo_PATH ("a && b ".toList ++ ';' :: " c".toList)).1
      = [("/bin/a".toList, ["a".toList]), ("/bin/c".toList, ["c".toList])] :=
  ⟨by decide, by decide, by decide, by decide, by decide, by decide, by decide, by decide,
    by decide, by decide, by decide, by decide,
    and_failure_ends_its_group_only (demo_env 1) demo_PATH "a && b ".toList " c".toList
      "a".toList [] ["b".toList] "c".toList [] "/bin/a".toList "/bin/c".toList 1
      (by decide) (by decide) (by decide) (by decide) (by decide) (by decide) (by decide)
      (by decide) (by decide) (by decide) (by decide) (by decide)⟩

/-! ## Claim C6 -/

/-- Claim C6 fails on the code.  The only whitespace-split token of the line
`a;b` is `a;b`, which is no operator token, yet the line gives two command
groups, with the argument vectors `a` and `b`.  The only whitespace-split
token of the line made of `a`, the byte `1` and `b` is the whole line, yet its
group is tokenised into `a`, `b` and `;`, because `get_Input` turns the byte
into a tab. -/
theorem line_without_operator_tokens_counterexample :
    words "a;b".toList = ["a;b".toList] ∧
    (∀ t ∈ words "a;b".toList, is_op t = false) ∧
    command_groups "a;b".toList = ["a\t;".toList, "b\t\t;".toList] ∧
    (command_groups "a;b".toList).map tokenize_Arguments
      = [["a".toList, ";".toList], ["b".toList, ";".toList]] ∧
    words "a\x01b".toList = ["a\x01b".toList] ∧
    (∀ t ∈ words "a\x01b".toList, is_op t = false) ∧
    (command_groups "a\x01b".toList).map tokenize_Arguments
      = [["a".toList, "b".toList, ";".toList]] := by
  refine ⟨?_, ?_, ?_, ?_, ?_, ?_, ?_⟩ <;> decide

/-- Claim C6 as amended: for every input line that holds no character `;`,
only whitespace and printable characters, and no word equal to `&&` or `||`,
the pipeline produces exactly one command group; its tokens are the
whitespace-split words of the line followed by `;`; the argument vector held
in `command_lines` when that `;` is reached is the list of those words; and
when the first word resolves, the executor is called once, with those words. -/
theorem plain_line_is_one_group (env : Env) (PATH : CStr) (line : List Char)
    (hp : ∀ c ∈ line, plain_char c = true) (hs : ';' ∉ line)
    (hop : ∀ t ∈ words line, is_op t = false) :
    (∃ g, command_groups line = [g] ∧
      tokenize_Arguments g = words line ++ [";".toList] ∧
      parse_arguments env (tokenize_Arguments g) (get_Paths PATH)
        = parse_loop env (get_Paths PATH) [";".toList]
            (parse_loop env (get_Paths PATH) (words line) init_state).1) ∧
    (parse_loop env (get_Paths PATH) (words line) init_state).2 = Flow.next ∧
    argv_of (parse_loop env (get_Paths PATH) (words line) init_state).1.command_lines
      = words line ∧
    (∀ w ws p, words line = w :: ws →
      (get_Exe_Path env w (get_Paths PATH)).1 = some p →
      execs (interpret_line env PATH line).1 = [(p, words line)]) := by
  have hn := newline_not_mem line hp
  have hloop : (parse_loop env (get_Paths PATH) (words line) init_state).2 = Flow.next ∧
      argv_of (parse_loop env (get_Paths PATH) (words line) init_state).1.command_lines
        = words line := by
    cases hw : words line with
    | nil => exact ⟨rfl, rfl⟩
    | cons w ws =>
      rw [hw] at hop
      have h := parse_loop_words env (get_Paths PATH) [] ws w init_state hop
        (by simp [init_state])
      rw [List.append_nil] at h
      rw [h]
      refine ⟨rfl, ?_⟩
      simpa [parse_loop, init_state] using argv_of_words (w :: ws)
  refine ⟨⟨_, command_groups_one line hn hs, tokenize_last_piece line hp, ?_⟩,
    hloop.1, hloop.2, ?_⟩
  · rw [tokenize_last_piece line hp]
    exact parse_loop_append env (get_Paths PATH) [";".toList] (words line) init_state hloop.1
  · intro w ws p hw hg
    rw [hw] at hop
    obtain ⟨ht, -⟩ := parse_arguments_single env (get_Paths PATH) w ws hop
    rw [hg] at ht
    rw [interpret_line_eq env PATH _ hn, command_groups_one line hn hs, run_groups_last,
      tokenize_last_piece line hp, hw, ht]
    simp [execs_append, execs_get_Exe_Path, execs_run_Command]

/-- Witness for the amended claim C6: the line `a x`. -/
theorem plain_line_is_one_group_witness :
    (∀ c ∈ "a x".toList, plain_char c = true) ∧ ';' ∉ "a x".toList ∧
    (∀ t ∈ words "a x".toList, is_op t = false) ∧
    words "a x".toList = ["a".toList, "x".toList] ∧
    (get_Exe_Path (demo_env 0) "a".toList (get_Paths demo_PATH)).1 = some "/bin/a".toList ∧
    execs (interpret_line (demo_env 0) demo_PATH "a x".toList).1
      = [("/bin/a".toList, words "a x".toList)] :=
  ⟨by decide, by decide, by decide, by decide, by decide,
    (plain_line_is_one_group (demo_env 0) demo_PATH "a x".toList (by decide) (by decide)
      (by decide)).2.2.2 "a".toList ["x".toList] "/bin/a".toList (by decide) (by decide)⟩

/-! ## Claim C11 -/

/-- Claim C11 fails on the code: the segment `/usr/bin/` of `PATH` already ends
in a slash and `get_Paths` appends another one, so the entry ends in two path
separators. -/
theorem get_Paths_double_separator :
    get_Paths "/usr/bin/".toList = ["/usr/bin//".toList] ∧
    ("/usr/bin//".toList).getLast? = some '/' ∧
    ("/usr/bin//".toList).dropLast.getLast? = some '/' := by
  refine ⟨?_, ?_, ?_⟩ <;> decide

/-- Claim C11 as amended: every entry returned by `get_Paths` is a non-empty
piece of `PATH` between colons followed by one appended slash; its last
character is a slash, and its second-to-last character is a slash exactly when
the piece itself ends in a slash. -/
theorem get_Paths_entry_ends_in_separator (PATH e : CStr) (he : e ∈ get_Paths PATH) :
    e.getLast? = some '/' ∧
    ∃ seg, seg ∈ split_nonempty (fun c => c == ':') PATH ∧ seg ≠ [] ∧ ':' ∉ seg ∧
      e = seg ++ ['/'] ∧ (e.dropLast.getLast? = some '/' ↔ seg.getLast? = some '/') := by
  have he1 := he
  unfold get_Paths at he1
  obtain ⟨seg, hseg, rfl⟩ := List.mem_map.mp he1
  obtain ⟨h1, h2, -⟩ := strtok_all_mem ':' PATH seg hseg
  rw [get_Paths_eq] at he
  obtain ⟨seg1, hseg1, e1⟩ := List.mem_map.mp he
  have e2 : seg1 = seg := List.append_cancel_right e1
  subst e2
  refine ⟨by simp, seg1, hseg1, h1, h2, rfl, ?_⟩
  simp

/-- Witness for the amended claim C11: the entry made from `/bin`. -/
theorem get_Paths_entry_ends_in_separator_witness :
    "/bin/".toList ∈ get_Paths demo_PATH ∧
    ("/bin/".toList.getLast? = some '/' ∧
      ∃ seg, seg ∈ split_nonempty (fun c => c == ':') demo_PATH ∧ seg ≠ [] ∧ ':' ∉ seg ∧
        "/bin/".toList = seg ++ ['/'] ∧
        ("/bin/".toList.dropLast.getLast? = some '/' ↔ seg.getLast? = some '/')) :=
  ⟨by decide, get_Paths_entry_ends_in_separator demo_PATH "/bin/".toList (by decide)⟩

/-! ## Claim C12 -/

theorem isspace_tab : isspace '\t' = true := by decide

/-- Claim C12: `normalize` is idempotent; it keeps the length, turns every
`isspace` character into a tab and keeps every other character; and the
`isspace` characters are the space, tab, newline, vertical tab, form feed and
carriage return. -/
theorem normalize_idempotent (s : CStr) :
    normalize (normalize s) = normalize s ∧
    (normalize s).length = s.length ∧
    (∀ i : Nat, (normalize s)[i]? = (s[i]?).map (fun c => if isspace c then '\t' else c)) ∧
    (∀ c, isspace c = true ↔
      c ∈ [' ', '\t', '\n', Char.ofNat 11, Char.ofNat 12, '\r']) := by
  refine ⟨?_, ?_, ?_, ?_⟩
  · unfold normalize
    rw [List.map_map]
    apply List.map_congr_left
    intro c _
    by_cases h : isspace c = true
    · simp [h, isspace_tab]
    · simp [h]
  · simp [normalize]
  · intro i
    simp [normalize]
  · intro c
    have h11 : c.toNat = 11 ↔ c = Char.ofNat 11 := by
      constructor
      · intro h
        rw [← Char.ofNat_toNat c, h]
      · intro h
        rw [h]
        decide
    have h12 : c.toNat = 12 ↔ c = Char.ofNat 12 := by
      constructor
      · intro h
        rw [← Char.ofNat_toNat c, h]
      · intro h
        rw [h]
        decide
    simp only [isspace, Bool.or_eq_true, beq_iff_eq, h11, h12, List.mem_cons,
      List.mem_singleton, List.not_mem_nil, or_false, or_assoc]

/-! ## Claims C13 and C14 -/

theorem sanitize_range (c : Char) :
    (32 ≤ c.toNat ∧ c.toNat ≤ 126 → sanitize c = c) ∧
    (¬(32 ≤ c.toNat ∧ c.toNat ≤ 126) → sanitize c = '\t') := by
  unfold sanitize
  constructor
  · intro h
    rw [if_neg (by omega)]
  · intro h
    rw [if_pos (by omega)]

/-- Claim C13: for bytes `bs` without a newline that are followed by a newline
on the input, `get_Input` returns the sanitised bytes followed by a tab and a
semicolon, where `sanitize` keeps the bytes `32..126` and maps every other byte
to a tab; every character of the returned line is a tab or a printable
character, and the line ends in tab, semicolon. -/
theorem get_Input_returns_sanitized_line (bs rest : List Char) (ending : ReadEnd)
    (h : '\n' ∉ bs) :
    get_Input (bs ++ '\n' :: rest) ending
      = InputResult.line (bs.map sanitize ++ "\t;".toList) rest ∧
    (∀ c ∈ bs.map sanitize ++ "\t;".toList, c = '\t' ∨ (32 ≤ c.toNat ∧ c.toNat ≤ 126)) ∧
    "\t;".toList <:+ bs.map sanitize ++ "\t;".toList ∧
    (∀ c, (32 ≤ c.toNat ∧ c.toNat ≤ 126 → sanitize c = c) ∧
      (¬(32 ≤ c.toNat ∧ c.toNat ≤ 126) → sanitize c = '\t')) := by
  refine ⟨?_, ?_, List.suffix_append _ _, sanitize_range⟩
  · unfold get_Input
    rw [get_Input_loop_line ending rest bs [] h]
    rfl
  · intro c hc
    rcases List.mem_append.mp hc with hc | hc
    · obtain ⟨b, -, rfl⟩ := List.mem_map.mp hc
      by_cases hb : 32 ≤ b.toNat ∧ b.toNat ≤ 126
      · rw [(sanitize_range b).1 hb]
        exact Or.inr hb
      · rw [(sanitize_range b).2 hb]
        exact Or.inl rfl
    · have : c = '\t' ∨ c = ';' := by simpa using hc
      rcases this with rfl | rfl
      · exact Or.inl rfl
      · exact Or.inr (by decide)

/-- Witness for claim C13: the bytes `a`, byte `1`, `b` followed by a newline. -/
theorem get_Input_returns_sanitized_line_witness :
    '\n' ∉ "a\x01b".toList ∧
    (get_Input ("a\x01b".toList ++ '\n' :: "rest".toList) ReadEnd.eof
      = InputResult.line ("a\x01b".toList.map sanitize ++ "\t;".toList) "rest".toList ∧
    (∀ c ∈ "a\x01b".toList.map sanitize ++ "\t;".toList,
      c = '\t' ∨ (32 ≤ c.toNat ∧ c.toNat ≤ 126)) ∧
    "\t;".toList <:+ "a\x01b".toList.map sanitize ++ "\t;".toList ∧
    (∀ c, (32 ≤ c.toNat ∧ c.toNat ≤ 126 → sanitize c = c) ∧
      (¬(32 ≤ c.toNat ∧ c.toNat ≤ 126) → sanitize c = '\t'))) :=
  ⟨by decide,
    get_Input_returns_sanitized_line "a\x01b".toList "rest".toList ReadEnd.eof (by decide)⟩

/-- Claim C14 fails on the code: when the end of the stream comes after the
bytes `abc` and no newline, `get_Input` leaves through `exit(EXIT_SUCCESS)`; it
does not return the line `abc` followed by tab, semicolon. -/
theorem get_Input_eof_after_bytes_exits :
    get_Input "abc".toList ReadEnd.eof = InputResult.exit_success ∧
    get_Input "abc".toList ReadEnd.eof
      ≠ InputResult.line ("abc".toList.map sanitize ++ "\t;".toList) [] := by
  refine ⟨?_, ?_⟩ <;> decide

theorem get_Input_loop_no_newline (ending : ReadEnd) :
    ∀ (bs : List Char) (acc : CStr), '\n' ∉ bs →
      get_Input_loop ending bs acc
        = (match ending with
           | ReadEnd.eof => InputResult.exit_success
           | ReadEnd.error => InputResult.exit_failure) := by
  intro bs
  induction bs with
  | nil => intro acc _; rfl
  | cons c cs ih =>
    intro acc h
    have hc : c ≠ '\n' := fun e => h (by simp [e])
    have hcs : '\n' ∉ cs := fun e => h (List.mem_cons_of_mem _ e)
    rw [get_Input_loop, if_neg hc, ih _ hcs]

/-- Claim C14 as amended: when the end of the stream is observed before a
newline, `get_Input` terminates the interpreter with success, whether zero
bytes or more have been read for the current line; the bytes read are not
returned. -/
theorem get_Input_eof_exits (bs : List Char) (h : '\n' ∉ bs) :
    get_Input bs ReadEnd.eof = InputResult.exit_success := by
  unfold get_Input
  rw [get_Input_loop_no_newline ReadEnd.eof bs [] h]

/-- Witness for the amended claim C14: the bytes `abc`. -/
theorem get_Input_eof_exits_witness :
    '\n' ∉ "abc".toList ∧ get_Input "abc".toList ReadEnd.eof = InputResult.exit_success :=
  ⟨by decide, get_Input_eof_exits "abc".toList (by decide)⟩

/-! ## Claims C15, C16 and C17 -/

/-- On the token `;` alone the executor is called with the empty path and the
empty argument vector, and its result is the status recorded. -/
theorem parse_arguments_semicolon_alone (env : Env) (vp : List CStr) :
    execs (parse_arguments env [";".toList] vp).1.trace = [([], [])] ∧
    (parse_arguments env [";".toList] vp).1.cmd_sts
      = (match (run_Command env [] []).1 with
         | some sts => sts
         | none => 19) := by
  unfold parse_arguments
  simp only [parse_loop, parse_step_semi]
  unfold branch_semi
  simp only [init_state, first_word, argv_of]
  have he := execs_run_Command env [] []
  rcases hr : run_Command env [] [] with ⟨_ | sts, evs⟩
  · rw [hr] at he
    simpa using he
  · rw [hr] at he
    simpa [parse_loop] using he

/-- Claim C15, evaluated on the code: on the token `;` alone, the sequence made
from an empty input line, `parse_arguments` calls the executor, with the empty
path and the empty argument vector.  In the branch `;` the status `19` is stored
for the empty `command_lines`, but `exe_path` is the non-NULL buffer from
`calloc`, so `run_Command` is called and its result overwrites the `19`; when
the child leaves with `0` the status recorded is success. -/
theorem semicolon_on_empty_argv_runs_executor (env : Env) (vp : List CStr) (PATH : CStr) :
    execs (parse_arguments env [";".toList] vp).1.trace = [([], [])] ∧
    (parse_arguments env [";".toList] vp).1.cmd_sts
      = (match (run_Command env [] []).1 with
         | some sts => sts
         | none => 19) ∧
    execs (interpret_line env PATH []).1 = [([], [])] ∧
    (parse_arguments (demo_env 0) [";".toList] demo_paths).1.cmd_sts = 0 := by
  have h1 := parse_arguments_semicolon_alone env vp
  refine ⟨h1.1, h1.2, ?_, by decide⟩
  have hn : '\n' ∉ ([] : List Char) := by simp
  have hp : ∀ c ∈ ([] : List Char), plain_char c = true := by simp
  rw [interpret_line_eq env PATH [] hn, command_groups_one [] hn (by simp), run_groups_last,
    tokenize_last_piece [] hp]
  exact (parse_arguments_semicolon_alone env (get_Paths PATH)).1

/-- Claim C16, evaluated on the code: the branches `&&` and `||` set `cmd_pos`
to `0` and leave the entries of `command_lines` in place, so the argument vector
is not empty after them and an operator that follows at once dispatches the
old command again.  On `a && ;` with `a` succeeding, and on `a || ;` with `a`
failing, `a` is executed twice.  After the token `;` the argument vector is
empty.  The input line `a &&` gives the tokens `a && ;`, so it runs `a` twice. -/
theorem argv_survives_and_and_or :
    execs (parse_arguments (demo_env 0) ["a".toList, "&&".toList, ";".toList]
        demo_paths).1.trace
      = [("/bin/a".toList, ["a".toList]), ("/bin/a".toList, ["a".toList])] ∧
    argv_of (parse_arguments (demo_env 0) ["a".toList, "&&".toList]
        demo_paths).1.command_lines = ["a".toList] ∧
    execs (parse_arguments (demo_env 1) ["a".toList, "||".toList, ";".toList]
        demo_paths).1.trace
      = [("/bin/a".toList, ["a".toList]), ("/bin/a".toList, ["a".toList])] ∧
    argv_of (parse_arguments (demo_env 1) ["a".toList, "||".toList]
        demo_paths).1.command_lines = ["a".toList] ∧
    argv_of (parse_arguments (demo_env 0) ["a".toList, ";".toList]
        demo_paths).1.command_lines = [] ∧
    (command_groups "a &&".toList).map tokenize_Arguments
      = [["a".toList, "&&".toList, ";".toList]] ∧
    execs (interpret_line (demo_env 0) demo_PATH "a &&".toList).1
      = [("/bin/a".toList, ["a".toList]), ("/bin/a".toList, ["a".toList])] := by
  refine ⟨?_, ?_, ?_, ?_, ?_, ?_, ?_⟩ <;> decide

/-- Claim C17, evaluated on the code: a token `&&` at the start of the sequence
changes nothing, because the status starts as `0`: processing goes on as if the
token were not there, and the command after it is executed; so the input line
`&& b` runs `b`. -/
theorem leading_and_is_ignored (env : Env) (vp : List CStr) (rest : List CStr) :
    parse_arguments env ("&&".toList :: rest) vp = parse_arguments env rest vp ∧
    execs (parse_arguments (demo_env 0) ["&&".toList, "b".toList, ";".toList]
        demo_paths).1.trace = [("/bin/b".toList, ["b".toList])] ∧
    execs (interpret_line (demo_env 0) demo_PATH "&& b".toList).1
      = [("/bin/b".toList, ["b".toList])] := by
  refine ⟨?_, by decide, by decide⟩
  unfold parse_arguments
  have h : parse_step env vp init_state "&&".toList = (init_state, Flow.next) := by
    rw [parse_step_and]
    rfl
  rw [parse_loop_next env vp init_state init_state _ rest h]

/-! ## Claim C20 -/

theorem parse_loop_single (env : Env) (vp : List CStr) (st : PState) (tok : CStr) :
    parse_loop env vp [tok] st = parse_step env vp st tok := by
  rcases hs : parse_step env vp st tok with ⟨st1, fl⟩
  cases fl with
  | next => rw [parse_loop_next env vp st st1 tok [] hs]; rfl
  | brk => exact parse_loop_stop env vp st st1 tok [] Flow.brk (by decide) hs
  | exit => exact parse_loop_stop env vp st st1 tok [] Flow.exit (by decide) hs

theorem parse_loop_append_stop (env : Env) (vp : List CStr) (ys : List CStr) :
    ∀ (xs : List CStr) (st : PState), (parse_loop env vp xs st).2 ≠ Flow.next →
      parse_loop env vp (xs ++ ys) st = parse_loop env vp xs st := by
  intro xs
  induction xs with
  | nil => intro st h; exact absurd rfl h
  | cons x xs ih =>
    intro st h
    rcases hs : parse_step env vp st x with ⟨st1, fl⟩
    cases fl with
    | next =>
      rw [List.cons_append, parse_loop_next env vp st st1 x _ hs,
        parse_loop_next env vp st st1 x _ hs]
      rw [parse_loop_next env vp st st1 x _ hs] at h
      exact ih st1 h
    | brk =>
      rw [List.cons_append, parse_loop_stop env vp st st1 x _ Flow.brk (by decide) hs,
        parse_loop_stop env vp st st1 x _ Flow.brk (by decide) hs]
    | exit =>
      rw [List.cons_append, parse_loop_stop env vp st st1 x _ Flow.exit (by decide) hs,
        parse_loop_stop env vp st st1 x _ Flow.exit (by decide) hs]

/-- What an operator branch adds to the executor calls when `command_lines`
holds a command: nothing, or one call with the resolved path of the first word
and the argument vector in `command_lines`. -/
theorem branch_semi_execs (env : Env) (vp : List CStr) (st : PState) (w : CStr)
    (hw : first_word st.command_lines = some w) :
    ∃ E, execs (branch_semi env vp st).1.trace = execs st.trace ++ E ∧
      (E = [] ∨ ∃ p, (get_Exe_Path env w vp).1 = some p ∧
        E = [(p, argv_of st.command_lines)]) := by
  rw [branch_semi_ready env vp st w hw]
  cases hg : (get_Exe_Path env w vp).1 with
  | none => exact ⟨[], by simp [execs_append, execs_get_Exe_Path], Or.inl rfl⟩
  | some p =>
    by_cases h1 : st.skip_next = 1
    · exact ⟨[], by simp [h1, execs_append, execs_get_Exe_Path], Or.inl rfl⟩
    · refine ⟨[(p, argv_of st.command_lines)], ?_, Or.inr ⟨p, rfl, rfl⟩⟩
      simp only [ne_eq, h1, not_false_eq_true, if_true]
      cases hr : (run_Command env p (argv_of st.command_lines)).1 <;>
        simp [execs_append, execs_get_Exe_Path, execs_run_Command]

theorem branch_and_execs (env : Env) (vp : List CStr) (st : PState) (w : CStr)
    (hw : first_word st.command_lines = some w) :
    ∃ E, execs (branch_and env vp st).1.trace = execs st.trace ++ E ∧
      (E = [] ∨ ∃ p, (get_Exe_Path env w vp).1 = some p ∧
        E = [(p, argv_of st.command_lines)]) := by
  unfold branch_and
  simp only [hw]
  cases hg : (get_Exe_Path env w vp).1 with
  | none =>
    refine ⟨[], ?_, Or.inl rfl⟩
    by_cases h1 : st.skip_next = 1 <;> simp [h1, execs_append, execs_get_Exe_Path]
  | some p =>
    by_cases h1 : st.skip_next = 1
    · refine ⟨[], ?_, Or.inl rfl⟩
      simp [h1, execs_append, execs_get_Exe_Path]
    · refine ⟨[(p, argv_of st.command_lines)], ?_, Or.inr ⟨p, rfl, rfl⟩⟩
      have he := execs_run_Command env p (argv_of st.command_lines)
      simp only [ne_eq, OfNat.ofNat_ne_zero, not_false_eq_true, h1, and_self, if_true]
      rcases hr : run_Command env p (argv_of st.command_lines) with ⟨_ | sts, evs⟩
      · rw [hr] at he
        simp [execs_append, execs_get_Exe_Path, he]
      · rw [hr] at he
        by_cases h0 : sts = 0 <;> simp [h0, execs_append, execs_get_Exe_Path, he]

theorem branch_or_execs (env : Env) (vp : List CStr) (st : PState) (w : CStr)
    (hw : first_word st.command_lines = some w) :
    ∃ E, execs (branch_or env vp st).1.trace = execs st.trace ++ E ∧
      (E = [] ∨ ∃ p, (get_Exe_Path env w vp).1 = some p ∧
        E = [(p, argv_of st.command_lines)]) := by
  unfold branch_or
  simp only [hw]
  by_cases h1 : st.skip_next = 1
  · refine ⟨[], ?_, Or.inl rfl⟩
    cases hp : st.exe_path <;> simp [h1, hp]
  · simp only [ne_eq, h1, not_false_eq_true, if_true]
    cases hg : (get_Exe_Path env w vp).1 with
    | none => exact ⟨[], by simp [execs_append, execs_get_Exe_Path], Or.inl rfl⟩
    | some p =>
      refine ⟨[(p, argv_of st.command_lines)], ?_, Or.inr ⟨p, rfl, rfl⟩⟩
      have he := execs_run_Command env p (argv_of st.command_lines)
      rcases hr : run_Command env p (argv_of st.command_lines) with ⟨_ | sts, evs⟩
      · rw [hr] at he
        simp only [hr]
        simp [execs_append, execs_get_Exe_Path, he]
      · rw [hr] at he
        simp only [hr]
        simp [execs_append, execs_get_Exe_Path, he]

theorem is_op_cases (op : CStr) (h : is_op op = true) :
    op = ";".toList ∨ op = "&&".toList ∨ op = "||".toList := by
  unfold is_op at h
  simp only [Bool.or_eq_true, beq_iff_eq] at h
  rcases h with (h | h) | h
  · exact Or.inl h
  · exact Or.inr (Or.inl h)
  · exact Or.inr (Or.inr h)

theorem parse_step_op_execs (env : Env) (vp : List CStr) (st : PState) (w op : CStr)
    (hw : first_word st.command_lines = some w) (hop : is_op op = true) :
    ∃ E, execs (parse_step env vp st op).1.trace = execs st.trace ++ E ∧
      (E = [] ∨ ∃ p, (get_Exe_Path env w vp).1 = some p ∧
        E = [(p, argv_of st.command_lines)]) := by
  rcases is_op_cases op hop with rfl | rfl | rfl
  · rw [parse_step_semi]
    exact branch_semi_execs env vp st w hw
  · rw [parse_step_and]
    exact branch_and_execs env vp st w hw
  · rw [parse_step_or]
    exact branch_or_execs env vp st w hw

/-- After an operator token that lets the loop go on, `cmd_pos` is `0`. -/
theorem parse_step_op_cmd_pos (env : Env) (vp : List CStr) (st : PState) (op : CStr)
    (hop : is_op op = true) (hfl : (parse_step env vp st op).2 = Flow.next) :
    (parse_step env vp st op).1.cmd_pos = 0 := by
  rcases is_op_cases op hop with rfl | rfl | rfl
  · rw [parse_step_semi] at hfl ⊢
    unfold branch_semi at hfl ⊢
    revert hfl
    simp only []
    (repeat' split) <;> simp_all
  · rw [parse_step_and] at hfl ⊢
    unfold branch_and at hfl ⊢
    revert hfl
    simp only []
    (repeat' split) <;> simp_all
  · rw [parse_step_or] at hfl ⊢
    unfold branch_or at hfl ⊢
    revert hfl
    simp only []
    (repeat' split) <;> simp_all

/-- After a token sequence that is empty or ends in an operator, and that the
loop has worked through, `cmd_pos` is `0`. -/
theorem cmd_pos_after_operator (env : Env) (vp : List CStr) (pre : List CStr)
    (hpre : pre = [] ∨ ∃ pre1 op1, pre = pre1 ++ [op1] ∧ is_op op1 = true)
    (hlive : (parse_loop env vp pre init_state).2 = Flow.next) :
    (parse_loop env vp pre init_state).1.cmd_pos = 0 := by
  rcases hpre with rfl | ⟨pre1, op1, rfl, hop⟩
  · rfl
  · by_cases h1 : (parse_loop env vp pre1 init_state).2 = Flow.next
    · rw [parse_loop_append env vp [op1] pre1 init_state h1, parse_loop_single] at hlive ⊢
      exact parse_step_op_cmd_pos env vp _ op1 hop hlive
    · rw [parse_loop_append_stop env vp [op1] pre1 init_state h1] at hlive
      exact absurd hlive h1

/-- Claim C20: let the tokens `pre` be empty or end in an operator, and let the
loop reach their end; let plain words `w ws..` and an operator `op` follow.
Then what the operator `op` adds to the executor calls is nothing, or one call
whose argument vector is exactly `w ws..` and whose path is the result of the
resolver for `w`: no word of an earlier command is passed. -/
theorem argv_is_the_words_since_last_operator (env : Env) (vp : List CStr)
    (pre : List CStr) (w : CStr) (ws : List CStr) (op : CStr)
    (hpre : pre = [] ∨ ∃ pre1 op1, pre = pre1 ++ [op1] ∧ is_op op1 = true)
    (hlive : (parse_arguments env pre vp).2 = Flow.next)
    (hws : ∀ x ∈ w :: ws, is_op x = false) (hop : is_op op = true) :
    ∃ E, execs (parse_arguments env (pre ++ (w :: ws) ++ [op]) vp).1.trace
        = execs (parse_arguments env pre vp).1.trace ++ E ∧
      (E = [] ∨ ∃ p, (get_Exe_Path env w vp).1 = some p ∧ E = [(p, w :: ws)]) := by
  unfold parse_arguments at hlive ⊢
  have hpos := cmd_pos_after_operator env vp pre hpre hlive
  rw [List.append_assoc, parse_loop_append env vp ((w :: ws) ++ [op]) pre init_state hlive,
    parse_loop_words env vp [op] ws w _ hws (by rw [hpos]; exact Nat.zero_le _),
    parse_loop_single]
  have hfw : first_word (({ (parse_loop env vp pre init_state).1 with
      command_lines := List.take (parse_loop env vp pre init_state).1.cmd_pos
          (parse_loop env vp pre init_state).1.command_lines
        ++ List.map some (w :: ws) ++ [none]
      cmd_pos := (parse_loop env vp pre init_state).1.cmd_pos + (w :: ws).length } :
      PState).command_lines) = some w := by
    simp [hpos, first_word]
  obtain ⟨E, hE, hcase⟩ := parse_step_op_execs env vp _ w op hfw hop
  refine ⟨E, hE, ?_⟩
  have hargv : argv_of (List.take (parse_loop env vp pre init_state).1.cmd_pos
      (parse_loop env vp pre init_state).1.command_lines
        ++ List.map some (w :: ws) ++ [none]) = w :: ws := by
    rw [hpos]
    simpa using argv_of_words (w :: ws)
  simp only [hargv] at hcase
  exact hcase

/-- Witness for claim C20: after `a x y &&` with `a` succeeding, the command `b`
is run with the argument vector `b` alone. -/
theorem argv_is_the_words_since_last_operator_witness :
    (["a".toList, "x".toList, "y".toList, "&&".toList] = [] ∨
      ∃ pre1 op1, ["a".toList, "x".toList, "y".toList, "&&".toList] = pre1 ++ [op1] ∧
        is_op op1 = true) ∧
    (parse_arguments (demo_env 0) ["a".toList, "x".toList, "y".toList, "&&".toList]
      demo_paths).2 = Flow.next ∧
    (∀ x ∈ ["b".toList], is_op x = false) ∧ is_op ";".toList = true ∧
    ∃ E, execs (parse_arguments (demo_env 0)
          (["a".toList, "x".toList, "y".toList, "&&".toList] ++ ["b".toList] ++ [";".toList])
          demo_paths).1.trace
        = execs (parse_arguments (demo_env 0)
            ["a".toList, "x".toList, "y".toList, "&&".toList] demo_paths).1.trace ++ E ∧
      (E = [] ∨ ∃ p, (get_Exe_Path (demo_env 0) "b".toList demo_paths).1 = some p ∧
        E = [(p, ["b".toList])]) :=
  ⟨Or.inr ⟨["a".toList, "x".toList, "y".toList], "&&".toList, by decide, by decide⟩,
    by decide, by decide, by decide,
    argv_is_the_words_since_last_operator (demo_env 0) demo_paths
      ["a".toList, "x".toList, "y".toList, "&&".toList] "b".toList [] ";".toList
      (Or.inr ⟨["a".toList, "x".toList, "y".toList], "&&".toList, by decide, by decide⟩)
      (by decide) (by decide) (by decide)⟩

/-! ## Claim C18 -/

theorem search_paths_congr (env1 env2 : Env) (hF : env1.fileExists = env2.fileExists)
    (command : CStr) (vp : List CStr) :
    search_paths env1 command vp = search_paths env2 command vp := by
  induction vp with
  | nil => rfl
  | cons p ps ih => simp only [search_paths, hF, ih]

/-- The resolver depends on the working directory and on the files only. -/
theorem get_Exe_Path_congr (env1 env2 : Env) (hP : env1.PWD = env2.PWD)
    (hF : env1.fileExists = env2.fileExists) (command : CStr) (vp : List CStr) :
    get_Exe_Path env1 command vp = get_Exe_Path env2 command vp := by
  simp only [get_Exe_Path, hP, hF, search_paths_congr env1 env2 hF]

theorem control_trace_append (xs ys : List Event) :
    control_trace (xs ++ ys) = control_trace xs ++ control_trace ys := by
  simp [control_trace]

theorem control_trace_run_Command (env : Env) (p : CStr) (argv : List CStr) :
    control_trace (run_Command env p argv).2 = [Event.exec p argv] := by
  unfold run_Command
  split <;> rfl

theorem execs_control_trace (t : List Event) : execs (control_trace t) = execs t := by
  induction t with
  | nil => rfl
  | cons e es ih =>
    cases e with
    | stat p => simpa [control_trace, is_control, execs] using ih
    | write fd text =>
      by_cases h : fd = STDERR
      · simpa [control_trace, is_control, execs, h] using ih
      · simpa [control_trace, is_control, execs, h] using ih
    | exec p a => simpa [control_trace, is_control, execs] using ih

/-- Two executors that agree on which runs return `0`, and on which runs fail
to fork, give runs that differ in the value of a non-zero status and in the
diagnostics only. -/
theorem run_Command_pair (env1 env2 : Env)
    (h0 : ∀ p argv, (run_Command env1 p argv).1 = some 0 ↔ (run_Command env2 p argv).1 = some 0)
    (hN : ∀ p argv, (run_Command env1 p argv).1 = none ↔ (run_Command env2 p argv).1 = none)
    (p : CStr) (argv : List CStr) :
    (∃ e1 e2, run_Command env1 p argv = (none, e1) ∧ run_Command env2 p argv = (none, e2) ∧
      control_trace e1 = [Event.exec p argv] ∧ control_trace e2 = [Event.exec p argv]) ∨
    (∃ s1 s2 e1 e2, run_Command env1 p argv = (some s1, e1) ∧
      run_Command env2 p argv = (some s2, e2) ∧ (s1 = 0 ↔ s2 = 0) ∧
      control_trace e1 = [Event.exec p argv] ∧ control_trace e2 = [Event.exec p argv]) := by
  have c1 := control_trace_run_Command env1 p argv
  have c2 := control_trace_run_Command env2 p argv
  have a0 := h0 p argv
  have aN := hN p argv
  rcases hr1 : run_Command env1 p argv with ⟨_ | s1, e1⟩ <;>
    rcases hr2 : run_Command env2 p argv with ⟨_ | s2, e2⟩ <;>
    rw [hr1] at c1 a0 aN <;> rw [hr2] at c2 a0 aN
  · exact Or.inl ⟨e1, e2, rfl, rfl, c1, c2⟩
  · simp at aN
  · simp at aN
  · refine Or.inr ⟨s1, s2, e1, e2, rfl, rfl, ?_, c1, c2⟩
    simpa using a0

theorem branch_semi_sim (env1 env2 : Env) (vp : List CStr)
    (hG : ∀ c, get_Exe_Path env1 c vp = get_Exe_Path env2 c vp)
    (h0 : ∀ p argv, (run_Command env1 p argv).1 = some 0 ↔ (run_Command env2 p argv).1 = some 0)
    (hN : ∀ p argv, (run_Command env1 p argv).1 = none ↔ (run_Command env2 p argv).1 = none)
    (st1 st2 : PState) (hs : same_control st1 st2) :
    (branch_semi env1 vp st1).2 = (branch_semi env2 vp st2).2 ∧
    control_trace (branch_semi env1 vp st1).1.trace
      = control_trace (branch_semi env2 vp st2).1.trace ∧
    ((branch_semi env1 vp st1).2 = Flow.next →
      same_control (branch_semi env1 vp st1).1 (branch_semi env2 vp st2).1) := by
  obtain ⟨h1, h2, h3, h4, h5, h6⟩ := hs
  obtain ⟨cl, ep, cp, sk, cs1, t1⟩ := st1
  obtain ⟨cl2, ep2, cp2, sk2, cs2, t2⟩ := st2
  simp only at h1 h2 h3 h4 h5 h6
  subst h1 h2 h3 h4
  unfold branch_semi
  simp only [hG]
  cases hfw : first_word cl with
  | none =>
    simp only []
    cases ep with
    | none => simp [same_control, h6]
    | some p =>
      by_cases hk : sk = 1
      · simp [same_control, h6, hk]
      · simp only [ne_eq, hk, not_false_eq_true, if_true]
        rcases run_Command_pair env1 env2 h0 hN p (argv_of cl) with
          ⟨e1, e2, hr1, hr2, c1, c2⟩ | ⟨s1, s2, e1, e2, hr1, hr2, hz, c1, c2⟩
        · simp [hr1, hr2, control_trace_append, c1, c2, h6]
        · simp [hr1, hr2, control_trace_append, c1, c2, h6, same_control, hz, hk]
  | some w =>
    simp only []
    cases (get_Exe_Path env2 w vp).1 with
    | none => simp [same_control, h6, control_trace_append]
    | some p =>
      by_cases hk : sk = 1
      · simp [same_control, h6, hk, control_trace_append]
      · simp only [ne_eq, hk, not_false_eq_true, if_true]
        rcases run_Command_pair env1 env2 h0 hN p (argv_of cl) with
          ⟨e1, e2, hr1, hr2, c1, c2⟩ | ⟨s1, s2, e1, e2, hr1, hr2, hz, c1, c2⟩
        · simp [hr1, hr2, control_trace_append, c1, c2, h6]
        · simp [hr1, hr2, control_trace_append, c1, c2, h6, same_control, hz, hk]

theorem branch_and_sim (env1 env2 : Env) (vp : List CStr)
    (hG : ∀ c, get_Exe_Path env1 c vp = get_Exe_Path env2 c vp)
    (h0 : ∀ p argv, (run_Command env1 p argv).1 = some 0 ↔ (run_Command env2 p argv).1 = some 0)
    (hN : ∀ p argv, (run_Command env1 p argv).1 = none ↔ (run_Command env2 p argv).1 = none)
    (st1 st2 : PState) (hs : same_control st1 st2) :
    (branch_and env1 vp st1).2 = (branch_and env2 vp st2).2 ∧
    control_trace (branch_and env1 vp st1).1.trace
      = control_trace (branch_and env2 vp st2).1.trace ∧
    ((branch_and env1 vp st1).2 = Flow.next →
      same_control (branch_and env1 vp st1).1 (branch_and env2 vp st2).1) := by
  obtain ⟨h1, h2, h3, h4, h5, h6⟩ := hs
  obtain ⟨cl, ep, cp, sk, cs1, t1⟩ := st1
  obtain ⟨cl2, ep2, cp2, sk2, cs2, t2⟩ := st2
  simp only at h1 h2 h3 h4 h5 h6
  subst h1 h2 h3 h4
  unfold branch_and
  simp only [hG]
  cases hfw : first_word cl with
  | none =>
    simp only []
    by_cases hk : sk = 1
    · cases ep <;> simp [same_control, h6, hk]
    · by_cases hz1 : cs1 = 0
      · have hz2 : cs2 = 0 := h5.mp hz1
        cases ep <;> simp [same_control, h6, hk, hz1, hz2]
      · have hz2 : ¬ cs2 = 0 := fun h => hz1 (h5.mpr h)
        cases ep with
        | none => simp [same_control, h6, hk, hz1, hz2]
        | some p =>
          simp only [ne_eq, hk, hz1, hz2, not_false_eq_true, and_self, if_true]
          rcases run_Command_pair env1 env2 h0 hN p (argv_of cl) with
            ⟨e1, e2, hr1, hr2, c1, c2⟩ | ⟨s1, s2, e1, e2, hr1, hr2, hz, c1, c2⟩
          · simp [hr1, hr2, control_trace_append, c1, c2, h6]
          · by_cases hs1 : s1 = 0
            · have hs2 : s2 = 0 := hz.mp hs1
              simp [hr1, hr2, control_trace_append, c1, c2, h6, same_control, hs1, hs2, hk]
            · have hs2 : ¬ s2 = 0 := fun h => hs1 (hz.mpr h)
              simp [hr1, hr2, control_trace_append, c1, c2, h6, same_control, hs1, hs2, hk]
  | some w =>
    simp only []
    by_cases hk : sk = 1
    · cases (get_Exe_Path env2 w vp).1 <;> simp [same_control, h6, hk, control_trace_append]
    · cases (get_Exe_Path env2 w vp).1 with
      | none => simp [same_control, h6, hk, control_trace_append]
      | some p =>
        simp only [ne_eq, hk, OfNat.ofNat_ne_zero, not_false_eq_true, and_self, if_true]
        rcases run_Command_pair env1 env2 h0 hN p (argv_of cl) with
          ⟨e1, e2, hr1, hr2, c1, c2⟩ | ⟨s1, s2, e1, e2, hr1, hr2, hz, c1, c2⟩
        · simp [hr1, hr2, control_trace_append, c1, c2, h6]
        · by_cases hs1 : s1 = 0
          · have hs2 : s2 = 0 := hz.mp hs1
            simp [hr1, hr2, control_trace_append, c1, c2, h6, same_control, hs1, hs2, hk]
          · have hs2 : ¬ s2 = 0 := fun h => hs1 (hz.mpr h)
            simp [hr1, hr2, control_trace_append, c1, c2, h6, same_control, hs1, hs2, hk]

theorem branch_or_sim (env1 env2 : Env) (vp : List CStr)
    (hG : ∀ c, get_Exe_Path env1 c vp = get_Exe_Path env2 c vp)
    (h0 : ∀ p argv, (run_Command env1 p argv).1 = some 0 ↔ (run_Command env2 p argv).1 = some 0)
    (hN : ∀ p argv, (run_Command env1 p argv).1 = none ↔ (run_Command env2 p argv).1 = none)
    (st1 st2 : PState) (hs : same_control st1 st2) :
    (branch_or env1 vp st1).2 = (branch_or env2 vp st2).2 ∧
    control_trace (branch_or env1 vp st1).1.trace
      = control_trace (branch_or env2 vp st2).1.trace ∧
    ((branch_or env1 vp st1).2 = Flow.next →
      same_control (branch_or env1 vp st1).1 (branch_or env2 vp st2).1) := by
  obtain ⟨h1, h2, h3, h4, h5, h6⟩ := hs
  obtain ⟨cl, ep, cp, sk, cs1, t1⟩ := st1
  obtain ⟨cl2, ep2, cp2, sk2, cs2, t2⟩ := st2
  simp only at h1 h2 h3 h4 h5 h6
  subst h1 h2 h3 h4
  unfold branch_or
  simp only [hG]
  by_cases hk : sk = 1
  · cases hfw : first_word cl <;> cases ep <;> simp [same_control, h6, hk]
  · cases hfw : first_word cl with
    | none =>
      simp only []
      cases ep with
      | none => simp [same_control, h6, hk]
      | some p =>
        simp only [ne_eq, hk, not_false_eq_true, if_true]
        rcases run_Command_pair env1 env2 h0 hN p (argv_of cl) with
          ⟨e1, e2, hr1, hr2, c1, c2⟩ | ⟨s1, s2, e1, e2, hr1, hr2, hz, c1, c2⟩
        · simp [hr1, hr2, control_trace_append, c1, c2, h6]
        · by_cases hs1 : s1 = 0
          · have hs2 : s2 = 0 := hz.mp hs1
            simp [hr1, hr2, control_trace_append, c1, c2, h6, same_control, hs1, hs2, hk]
          · have hs2 : ¬ s2 = 0 := fun h => hs1 (hz.mpr h)
            simp [hr1, hr2, control_trace_append, c1, c2, h6, same_control, hs1, hs2, hk]
    | some w =>
      simp only [ne_eq, hk, not_false_eq_true, if_true]
      cases (get_Exe_Path env2 w vp).1 with
      | none => simp [same_control, h6, hk, control_trace_append]
      | some p =>
        simp only []
        rcases run_Command_pair env1 env2 h0 hN p (argv_of cl) with
          ⟨e1, e2, hr1, hr2, c1, c2⟩ | ⟨s1, s2, e1, e2, hr1, hr2, hz, c1, c2⟩
        · simp [hr1, hr2, control_trace_append, c1, c2, h6]
        · by_cases hs1 : s1 = 0
          · have hs2 : s2 = 0 := hz.mp hs1
            simp [hr1, hr2, control_trace_append, c1, c2, h6, same_control, hs1, hs2, hk]
          · have hs2 : ¬ s2 = 0 := fun h => hs1 (hz.mpr h)
            simp [hr1, hr2, control_trace_append, c1, c2, h6, same_control, hs1, hs2, hk]

theorem branch_word_sim (st1 st2 : PState) (hs : same_control st1 st2) (tok : CStr) :
    (branch_word st1 tok).2 = (branch_word st2 tok).2 ∧
    control_trace (branch_word st1 tok).1.trace = control_trace (branch_word st2 tok).1.trace ∧
    ((branch_word st1 tok).2 = Flow.next →
      same_control (branch_word st1 tok).1 (branch_word st2 tok).1) := by
  obtain ⟨h1, h2, h3, h4, h5, h6⟩ := hs
  refine ⟨rfl, h6, fun _ => ?_⟩
  simp [branch_word, same_control, h1, h2, h3, h4, h5, h6]

/-- One token keeps two runs of the loop together. -/
theorem parse_step_sim (env1 env2 : Env) (vp : List CStr)
    (hG : ∀ c, get_Exe_Path env1 c vp = get_Exe_Path env2 c vp)
    (h0 : ∀ p argv, (run_Command env1 p argv).1 = some 0 ↔ (run_Command env2 p argv).1 = some 0)
    (hN : ∀ p argv, (run_Command env1 p argv).1 = none ↔ (run_Command env2 p argv).1 = none)
    (st1 st2 : PState) (hs : same_control st1 st2) (tok : CStr) :
    (parse_step env1 vp st1 tok).2 = (parse_step env2 vp st2 tok).2 ∧
    control_trace (parse_step env1 vp st1 tok).1.trace
      = control_trace (parse_step env2 vp st2 tok).1.trace ∧
    ((parse_step env1 vp st1 tok).2 = Flow.next →
      same_control (parse_step env1 vp st1 tok).1 (parse_step env2 vp st2 tok).1) := by
  unfold parse_step
  by_cases t1 : tok = ";".toList
  · simp only [t1, if_true]
    exact branch_semi_sim env1 env2 vp hG h0 hN st1 st2 hs
  · by_cases t2 : tok = "&&".toList
    · simp only [t1, t2, if_true, if_false]
      exact branch_and_sim env1 env2 vp hG h0 hN st1 st2 hs
    · by_cases t3 : tok = "||".toList
      · simp only [t1, t2, t3, if_true, if_false]
        exact branch_or_sim env1 env2 vp hG h0 hN st1 st2 hs
      · simp only [t1, t2, t3, if_false]
        exact branch_word_sim st1 st2 hs tok

/-- The loop keeps two runs together. -/
theorem parse_loop_sim (env1 env2 : Env) (vp : List CStr)
    (hG : ∀ c, get_Exe_Path env1 c vp = get_Exe_Path env2 c vp)
    (h0 : ∀ p argv, (run_Command env1 p argv).1 = some 0 ↔ (run_Command env2 p argv).1 = some 0)
    (hN : ∀ p argv, (run_Command env1 p argv).1 = none ↔ (run_Command env2 p argv).1 = none) :
    ∀ (toks : List CStr) (st1 st2 : PState), same_control st1 st2 →
      (parse_loop env1 vp toks st1).2 = (parse_loop env2 vp toks st2).2 ∧
      control_trace (parse_loop env1 vp toks st1).1.trace
        = control_trace (parse_loop env2 vp toks st2).1.trace := by
  intro toks
  induction toks with
  | nil => intro st1 st2 hs; exact ⟨rfl, hs.2.2.2.2.2⟩
  | cons tok rest ih =>
    intro st1 st2 hs
    obtain ⟨hfl, htr, hnext⟩ := parse_step_sim env1 env2 vp hG h0 hN st1 st2 hs tok
    rcases hp1 : parse_step env1 vp st1 tok with ⟨a1, f1⟩
    rcases hp2 : parse_step env2 vp st2 tok with ⟨a2, f2⟩
    rw [hp1, hp2] at hfl htr hnext
    simp only at hfl htr hnext
    subst hfl
    cases f1 with
    | next =>
      rw [parse_loop_next env1 vp st1 a1 tok rest hp1,
        parse_loop_next env2 vp st2 a2 tok rest hp2]
      exact ih a1 a2 (hnext rfl)
    | brk =>
      rw [parse_loop_stop env1 vp st1 a1 tok rest Flow.brk (by decide) hp1,
        parse_loop_stop env2 vp st2 a2 tok rest Flow.brk (by decide) hp2]
      exact ⟨rfl, htr⟩
    | exit =>
      rw [parse_loop_stop env1 vp st1 a1 tok rest Flow.exit (by decide) hp1,
        parse_loop_stop env2 vp st2 a2 tok rest Flow.exit (by decide) hp2]
      exact ⟨rfl, htr⟩

/-- Claim C18: only the difference between zero and non-zero statuses drives
the control flow.  For two executors that agree on which runs return `0` (and
on which runs fail to fork), with the same files and the same search path,
`parse_arguments` makes the same executor calls in the same order, makes the
same calls of the resolver (the same `stat` calls and the same messages on the
output), and leaves the loop the same way. -/
theorem only_zero_status_drives_control (env : Env)
    (child1 child2 : CStr → List CStr → ChildOutcome) (vp toks : List CStr)
    (h0 : ∀ p argv, (run_Command { env with child := child1 } p argv).1 = some 0 ↔
      (run_Command { env with child := child2 } p argv).1 = some 0)
    (hN : ∀ p argv, (run_Command { env with child := child1 } p argv).1 = none ↔
      (run_Command { env with child := child2 } p argv).1 = none) :
    execs (parse_arguments { env with child := child1 } toks vp).1.trace
      = execs (parse_arguments { env with child := child2 } toks vp).1.trace ∧
    control_trace (parse_arguments { env with child := child1 } toks vp).1.trace
      = control_trace (parse_arguments { env with child := child2 } toks vp).1.trace ∧
    (parse_arguments { env with child := child1 } toks vp).2
      = (parse_arguments { env with child := child2 } toks vp).2 := by
  have hG : ∀ c, get_Exe_Path { env with child := child1 } c vp
      = get_Exe_Path { env with child := child2 } c vp :=
    fun c => get_Exe_Path_congr { env with child := child1 } { env with child := child2 }
      rfl rfl c vp
  have hsim : same_control init_state init_state := ⟨rfl, rfl, rfl, rfl, Iff.rfl, rfl⟩
  obtain ⟨hfl, htr⟩ := parse_loop_sim _ _ vp hG h0 hN toks init_state init_state hsim
  refine ⟨?_, htr, hfl⟩
  have := congrArg execs htr
  rw [execs_control_trace, execs_control_trace] at this
  exact this

/-- Witness for claim C18: the program `a` leaving with `1` in one world and
with `2` in the other, on the tokens `a || b ; a && c ;`. -/
theorem only_zero_status_drives_control_witness :
    (∀ p argv, (run_Command { demo_env 0 with child := (demo_env 1).child } p argv).1 = some 0 ↔
      (run_Command { demo_env 0 with child := (demo_env 2).child } p argv).1 = some 0) ∧
    (∀ p argv, (run_Command { demo_env 0 with child := (demo_env 1).child } p argv).1 = none ↔
      (run_Command { demo_env 0 with child := (demo_env 2).child } p argv).1 = none) ∧
    (execs (parse_arguments { demo_env 0 with child := (demo_env 1).child }
        ["a".toList, "||".toList, "b".toList, ";".toList, "a".toList, "&&".toList,
          "c".toList, ";".toList] demo_paths).1.trace
      = execs (parse_arguments { demo_env 0 with child := (demo_env 2).child }
        ["a".toList, "||".toList, "b".toList, ";".toList, "a".toList, "&&".toList,
          "c".toList, ";".toList] demo_paths).1.trace ∧
    control_trace (parse_arguments { demo_env 0 with child := (demo_env 1).child }
        ["a".toList, "||".toList, "b".toList, ";".toList, "a".toList, "&&".toList,
          "c".toList, ";".toList] demo_paths).1.trace
      = control_trace (parse_arguments { demo_env 0 with child := (demo_env 2).child }
        ["a".toList, "||".toList, "b".toList, ";".toList, "a".toList, "&&".toList,
          "c".toList, ";".toList] demo_paths).1.trace ∧
    (parse_arguments { demo_env 0 with child := (demo_env 1).child }
        ["a".toList, "||".toList, "b".toList, ";".toList, "a".toList, "&&".toList,
          "c".toList, ";".toList] demo_paths).2
      = (parse_arguments { demo_env 0 with child := (demo_env 2).child }
        ["a".toList, "||".toList, "b".toList, ";".toList, "a".toList, "&&".toList,
          "c".toList, ";".toList] demo_paths).2) :=
  have h0 : ∀ p argv,
      (run_Command { demo_env 0 with child := (demo_env 1).child } p argv).1 = some 0 ↔
      (run_Command { demo_env 0 with child := (demo_env 2).child } p argv).1 = some 0 := by
    intro p argv
    by_cases h : p = ['/', 'b', 'i', 'n', '/', 'a'] <;> simp [run_Command, demo_env, h]
  have hN : ∀ p argv,
      (run_Command { demo_env 0 with child := (demo_env 1).child } p argv).1 = none ↔
      (run_Command { demo_env 0 with child := (demo_env 2).child } p argv).1 = none := by
    intro p argv
    by_cases h : p = ['/', 'b', 'i', 'n', '/', 'a'] <;> simp [run_Command, demo_env, h]
  ⟨h0, hN, only_zero_status_drives_control (demo_env 0) (demo_env 1).child (demo_env 2).child
    demo_paths _ h0 hN⟩

/-! ## Claim C19 -/

theorem execs_other_than_append (x : CStr) (xs ys : List Event) :
    execs_other_than x (xs ++ ys) = execs_other_than x xs ++ execs_other_than x ys := by
  simp [execs_other_than, execs_append]

theorem execs_other_than_get_Exe_Path (x : CStr) (env : Env) (c : CStr) (vp : List CStr) :
    execs_other_than x (get_Exe_Path env c vp).2 = [] := by
  simp [execs_other_than, execs_get_Exe_Path]

theorem execs_other_than_run_x (x : CStr) (env : Env) (p : CStr) (argv : List CStr)
    (h : argv.head? = some x) : execs_other_than x (run_Command env p argv).2 = [] := by
  simp [execs_other_than, execs_run_Command, h]

theorem run_Command_congr (env1 env2 : Env) (p : CStr) (argv : List CStr)
    (h : env1.child p argv = env2.child p argv) :
    run_Command env1 p argv = run_Command env2 p argv := by
  simp only [run_Command, h]

theorem argv_of_head (cl : List (Option CStr)) : (argv_of cl).head? = first_word cl := by
  cases cl with
  | nil => rfl
  | cons a as => cases a <;> rfl

theorem branch_semi_but (x px : CStr) (env1 env2 : Env) (vp : List CStr)
    (hx1 : (get_Exe_Path env1 x vp).1 = none) (hx2 : (get_Exe_Path env2 x vp).1 = some px)
    (hfail : ∀ argv, argv.head? = some x →
      ∃ s, (run_Command env2 px argv).1 = some s ∧ s ≠ 0)
    (hres : ∀ w, w ≠ x → (get_Exe_Path env1 w vp).1 = (get_Exe_Path env2 w vp).1)
    (hchild : ∀ p argv, argv.head? ≠ some x → env1.child p argv = env2.child p argv)
    (st1 st2 : PState) (hs : same_but_for x st1 st2) :
    (branch_semi env1 vp st1).2 = (branch_semi env2 vp st2).2 ∧
    execs_other_than x (branch_semi env1 vp st1).1.trace
      = execs_other_than x (branch_semi env2 vp st2).1.trace ∧
    ((branch_semi env1 vp st1).2 = Flow.next →
      same_but_for x (branch_semi env1 vp st1).1 (branch_semi env2 vp st2).1) := by
  obtain ⟨h1, h2, h3, h4, h5, h6⟩ := hs
  obtain ⟨cl, ep, cp, sk, cs1, t1⟩ := st1
  obtain ⟨cl2, ep2, cp2, sk2, cs2, t2⟩ := st2
  simp only at h1 h2 h3 h4 h5 h6
  subst h1 h2 h3 h4
  have hhead := argv_of_head cl
  unfold branch_semi
  cases hfw : first_word cl with
  | none =>
    rw [hfw] at hhead
    have hrun : ∀ p, run_Command env1 p (argv_of cl) = run_Command env2 p (argv_of cl) :=
      fun p => run_Command_congr env1 env2 p _ (hchild p _ (by rw [hhead]; simp))
    simp only [hrun]
    cases ep with
    | none => simp [same_but_for, h6]
    | some p =>
      by_cases hk : sk = 1
      · simp [same_but_for, h6, hk]
      · simp only [ne_eq, hk, not_false_eq_true, if_true]
        rcases hr : run_Command env2 p (argv_of cl) with ⟨_ | s, e⟩
        · simp [execs_other_than_append, h6]
        · simp [execs_other_than_append, h6, same_but_for, hk]
  | some w =>
    rw [hfw] at hhead
    by_cases hwx : w = x
    · subst hwx
      obtain ⟨s, hs, hs0⟩ := hfail (argv_of cl) hhead
      have he := execs_other_than_run_x w env2 px (argv_of cl) hhead
      simp only [hx1, hx2]
      by_cases hk : sk = 1
      · simp [same_but_for, h6, hk, execs_other_than_append, execs_other_than_get_Exe_Path]
      · simp only [ne_eq, hk, not_false_eq_true, if_true]
        rcases hr : run_Command env2 px (argv_of cl) with ⟨o, e⟩
        rw [hr] at hs he
        simp only at hs he
        subst hs
        simp [same_but_for, h6, hk, execs_other_than_append, execs_other_than_get_Exe_Path,
          he, hs0]
    · have hrun : ∀ p, run_Command env1 p (argv_of cl) = run_Command env2 p (argv_of cl) :=
        fun p => run_Command_congr env1 env2 p _
          (hchild p _ (by rw [hhead]; simpa using hwx))
      simp only [hrun, hres w hwx]
      cases (get_Exe_Path env2 w vp).1 with
      | none =>
        simp [same_but_for, h6, execs_other_than_append, execs_other_than_get_Exe_Path]
      | some p =>
        by_cases hk : sk = 1
        · simp [same_but_for, h6, hk, execs_other_than_append, execs_other_than_get_Exe_Path]
        · simp only [ne_eq, hk, not_false_eq_true, if_true]
          rcases hr : run_Command env2 p (argv_of cl) with ⟨_ | s, e⟩
          · simp [execs_other_than_append, execs_other_than_get_Exe_Path, h6]
          · simp [execs_other_than_append, execs_other_than_get_Exe_Path, h6, same_but_for,
              hk]

theorem branch_and_but (x px : CStr) (env1 env2 : Env) (vp : List CStr)
    (hx1 : (get_Exe_Path env1 x vp).1 = none) (hx2 : (get_Exe_Path env2 x vp).1 = some px)
    (hfail : ∀ argv, argv.head? = some x →
      ∃ s, (run_Command env2 px argv).1 = some s ∧ s ≠ 0)
    (hres : ∀ w, w ≠ x → (get_Exe_Path env1 w vp).1 = (get_Exe_Path env2 w vp).1)
    (hchild : ∀ p argv, argv.head? ≠ some x → env1.child p argv = env2.child p argv)
    (st1 st2 : PState) (hs : same_but_for x st1 st2) :
    (branch_and env1 vp st1).2 = (branch_and env2 vp st2).2 ∧
    execs_other_than x (branch_and env1 vp st1).1.trace
      = execs_other_than x (branch_and env2 vp st2).1.trace ∧
    ((branch_and env1 vp st1).2 = Flow.next →
      same_but_for x (branch_and env1 vp st1).1 (branch_and env2 vp st2).1) := by
  obtain ⟨h1, h2, h3, h4, h5, h6⟩ := hs
  obtain ⟨cl, ep, cp, sk, cs1, t1⟩ := st1
  obtain ⟨cl2, ep2, cp2, sk2, cs2, t2⟩ := st2
  simp only at h1 h2 h3 h4 h5 h6
  subst h1 h2 h3 h4
  have hhead := argv_of_head cl
  unfold branch_and
  cases hfw : first_word cl with
  | none =>
    rw [hfw] at hhead
    have hrun : ∀ p, run_Command env1 p (argv_of cl) = run_Command env2 p (argv_of cl) :=
      fun p => run_Command_congr env1 env2 p _ (hchild p _ (by rw [hhead]; simp))
    simp only [hrun]
    by_cases hk : sk = 1
    · cases ep <;> simp [same_but_for, h6, hk]
    · by_cases hz1 : cs1 = 0
      · have hz2 : cs2 = 0 := h5.mp hz1
        cases ep <;> simp [same_but_for, h6, hk, hz1, hz2]
      · have hz2 : ¬ cs2 = 0 := fun h => hz1 (h5.mpr h)
        cases ep with
        | none => simp [same_but_for, h6, hk, hz1, hz2]
        | some p =>
          simp only [ne_eq, hk, hz1, hz2, not_false_eq_true, and_self, if_true]
          rcases hr : run_Command env2 p (argv_of cl) with ⟨_ | s, e⟩
          · simp [execs_other_than_append, h6]
          · by_cases hs1 : s = 0 <;>
              simp [execs_other_than_append, h6, same_but_for, hs1, hk]
  | some w =>
    rw [hfw] at hhead
    by_cases hwx : w = x
    · subst hwx
      obtain ⟨s, hs, hs0⟩ := hfail (argv_of cl) hhead
      have he := execs_other_than_run_x w env2 px (argv_of cl) hhead
      simp only [hx1, hx2]
      by_cases hk : sk = 1
      · simp [same_but_for, h6, hk, execs_other_than_append, execs_other_than_get_Exe_Path]
      · simp only [ne_eq, hk, OfNat.ofNat_ne_zero, not_false_eq_true, and_self, if_true]
        rcases hr : run_Command env2 px (argv_of cl) with ⟨o, e⟩
        rw [hr] at hs he
        simp only at hs he
        subst hs
        simp [same_but_for, h6, hk, execs_other_than_append, execs_other_than_get_Exe_Path,
          he, hs0]
    · have hrun : ∀ p, run_Command env1 p (argv_of cl) = run_Command env2 p (argv_of cl) :=
        fun p => run_Command_congr env1 env2 p _
          (hchild p _ (by rw [hhead]; simpa using hwx))
      simp only [hrun, hres w hwx]
      by_cases hk : sk = 1
      · cases (get_Exe_Path env2 w vp).1 <;>
          simp [same_but_for, h6, hk, execs_other_than_append, execs_other_than_get_Exe_Path]
      · cases (get_Exe_Path env2 w vp).1 with
        | none =>
          simp [same_but_for, h6, hk, execs_other_than_append, execs_other_than_get_Exe_Path]
        | some p =>
          simp only [ne_eq, hk, OfNat.ofNat_ne_zero, not_false_eq_true, and_self, if_true]
          rcases hr : run_Command env2 p (argv_of cl) with ⟨_ | s, e⟩
          · simp [execs_other_than_append, execs_other_than_get_Exe_Path, h6]
          · by_cases hs1 : s = 0 <;>
              simp [execs_other_than_append, execs_other_than_get_Exe_Path, h6, same_but_for,
                hs1, hk]

theorem branch_or_but (x px : CStr) (env1 env2 : Env) (vp : List CStr)
    (hx1 : (get_Exe_Path env1 x vp).1 = none) (hx2 : (get_Exe_Path env2 x vp).1 = some px)
    (hfail : ∀ argv, argv.head? = some x →
      ∃ s, (run_Command env2 px argv).1 = some s ∧ s ≠ 0)
    (hres : ∀ w, w ≠ x → (get_Exe_Path env1 w vp).1 = (get_Exe_Path env2 w vp).1)
    (hchild : ∀ p argv, argv.head? ≠ some x → env1.child p argv = env2.child p argv)
    (st1 st2 : PState) (hs : same_but_for x st1 st2) :
    (branch_or env1 vp st1).2 = (branch_or env2 vp st2).2 ∧
    execs_other_than x (branch_or env1 vp st1).1.trace
      = execs_other_than x (branch_or env2 vp st2).1.trace ∧
    ((branch_or env1 vp st1).2 = Flow.next →
      same_but_for x (branch_or env1 vp st1).1 (branch_or env2 vp st2).1) := by
  obtain ⟨h1, h2, h3, h4, h5, h6⟩ := hs
  obtain ⟨cl, ep, cp, sk, cs1, t1⟩ := st1
  obtain ⟨cl2, ep2, cp2, sk2, cs2, t2⟩ := st2
  simp only at h1 h2 h3 h4 h5 h6
  subst h1 h2 h3 h4
  have hhead := argv_of_head cl
  unfold branch_or
  dsimp only
  by_cases hk : sk = 1
  · cases hfw : first_word cl <;> cases ep <;> simp [same_but_for, h6, hk, hfw]
  · cases hfw : first_word cl with
    | none =>
      rw [hfw] at hhead
      have hrun : ∀ p, run_Command env1 p (argv_of cl) = run_Command env2 p (argv_of cl) :=
        fun p => run_Command_congr env1 env2 p _ (hchild p _ (by rw [hhead]; simp))
      simp only [hrun]
      cases ep with
      | none => simp [same_but_for, h6, hk]
      | some p =>
        simp only [ne_eq, hk, not_false_eq_true, if_true]
        rcases hr : run_Command env2 p (argv_of cl) with ⟨_ | s, e⟩
        · simp [execs_other_than_append, h6]
        · by_cases hs1 : s = 0 <;>
            simp [execs_other_than_append, h6, same_but_for, hs1, hk]
    | some w =>
      rw [hfw] at hhead
      by_cases hwx : w = x
      · subst hwx
        obtain ⟨s, hs, hs0⟩ := hfail (argv_of cl) hhead
        have he := execs_other_than_run_x w env2 px (argv_of cl) hhead
        simp only [ne_eq, hk, not_false_eq_true, if_true, hx1, hx2]
        rcases hr : run_Command env2 px (argv_of cl) with ⟨o, e⟩
        rw [hr] at hs he
        simp only at hs he
        subst hs
        simp [same_but_for, h6, hk, execs_other_than_append, execs_other_than_get_Exe_Path,
          he, hs0]
      · have hrun : ∀ p, run_Command env1 p (argv_of cl) = run_Command env2 p (argv_of cl) :=
          fun p => run_Command_congr env1 env2 p _
            (hchild p _ (by rw [hhead]; simpa using hwx))
        simp only [ne_eq, hk, not_false_eq_true, if_true, hrun, hres w hwx]
        cases (get_Exe_Path env2 w vp).1 with
        | none =>
          simp [same_but_for, h6, hk, execs_other_than_append, execs_other_than_get_Exe_Path]
        | some p =>
          simp only []
          rcases hr : run_Command env2 p (argv_of cl) with ⟨_ | s, e⟩
          · simp [execs_other_than_append, execs_other_than_get_Exe_Path, h6]
          · by_cases hs1 : s = 0 <;>
              simp [execs_other_than_append, execs_other_than_get_Exe_Path, h6, same_but_for,
                hs1, hk]

theorem branch_word_but (x : CStr) (st1 st2 : PState) (hs : same_but_for x st1 st2)
    (tok : CStr) :
    (branch_word st1 tok).2 = (branch_word st2 tok).2 ∧
    execs_other_than x (branch_word st1 tok).1.trace
      = execs_other_than x (branch_word st2 tok).1.trace ∧
    ((branch_word st1 tok).2 = Flow.next →
      same_but_for x (branch_word st1 tok).1 (branch_word st2 tok).1) := by
  obtain ⟨h1, h2, h3, h4, h5, h6⟩ := hs
  refine ⟨rfl, h6, fun _ => ?_⟩
  simp [branch_word, same_but_for, h1, h2, h3, h4, h5, h6]

theorem parse_step_but (x px : CStr) (env1 env2 : Env) (vp : List CStr)
    (hx1 : (get_Exe_Path env1 x vp).1 = none) (hx2 : (get_Exe_Path env2 x vp).1 = some px)
    (hfail : ∀ argv, argv.head? = some x →
      ∃ s, (run_Command env2 px argv).1 = some s ∧ s ≠ 0)
    (hres : ∀ w, w ≠ x → (get_Exe_Path env1 w vp).1 = (get_Exe_Path env2 w vp).1)
    (hchild : ∀ p argv, argv.head? ≠ some x → env1.child p argv = env2.child p argv)
    (st1 st2 : PState) (hs : same_but_for x st1 st2) (tok : CStr) :
    (parse_step env1 vp st1 tok).2 = (parse_step env2 vp st2 tok).2 ∧
    execs_other_than x (parse_step env1 vp st1 tok).1.trace
      = execs_other_than x (parse_step env2 vp st2 tok).1.trace ∧
    ((parse_step env1 vp st1 tok).2 = Flow.next →
      same_but_for x (parse_step env1 vp st1 tok).1 (parse_step env2 vp st2 tok).1) := by
  unfold parse_step
  by_cases t1 : tok = ";".toList
  · simp only [t1, if_true]
    exact branch_semi_but x px env1 env2 vp hx1 hx2 hfail hres hchild st1 st2 hs
  · by_cases t2 : tok = "&&".toList
    · simp only [t1, t2, if_true, if_false]
      exact branch_and_but x px env1 env2 vp hx1 hx2 hfail hres hchild st1 st2 hs
    · by_cases t3 : tok = "||".toList
      · simp only [t1, t2, t3, if_true, if_false]
        exact branch_or_but x px env1 env2 vp hx1 hx2 hfail hres hchild st1 st2 hs
      · simp only [t1, t2, t3, if_false]
        exact branch_word_but x st1 st2 hs tok

theorem parse_loop_but (x px : CStr) (env1 env2 : Env) (vp : List CStr)
    (hx1 : (get_Exe_Path env1 x vp).1 = none) (hx2 : (get_Exe_Path env2 x vp).1 = some px)
    (hfail : ∀ argv, argv.head? = some x →
      ∃ s, (run_Command env2 px argv).1 = some s ∧ s ≠ 0)
    (hres : ∀ w, w ≠ x → (get_Exe_Path env1 w vp).1 = (get_Exe_Path env2 w vp).1)
    (hchild : ∀ p argv, argv.head? ≠ some x → env1.child p argv = env2.child p argv) :
    ∀ (toks : List CStr) (st1 st2 : PState), same_but_for x st1 st2 →
      (parse_loop env1 vp toks st1).2 = (parse_loop env2 vp toks st2).2 ∧
      execs_other_than x (parse_loop env1 vp toks st1).1.trace
        = execs_other_than x (parse_loop env2 vp toks st2).1.trace := by
  intro toks
  induction toks with
  | nil => intro st1 st2 hs; exact ⟨rfl, hs.2.2.2.2.2⟩
  | cons tok rest ih =>
    intro st1 st2 hs
    obtain ⟨hfl, htr, hnext⟩ :=
      parse_step_but x px env1 env2 vp hx1 hx2 hfail hres hchild st1 st2 hs tok
    rcases hp1 : parse_step env1 vp st1 tok with ⟨a1, f1⟩
    rcases hp2 : parse_step env2 vp st2 tok with ⟨a2, f2⟩
    rw [hp1, hp2] at hfl htr hnext
    simp only at hfl htr hnext
    subst hfl
    cases f1 with
    | next =>
      rw [parse_loop_next env1 vp st1 a1 tok rest hp1,
        parse_loop_next env2 vp st2 a2 tok rest hp2]
      exact ih a1 a2 (hnext rfl)
    | brk =>
      rw [parse_loop_stop env1 vp st1 a1 tok rest Flow.brk (by decide) hp1,
        parse_loop_stop env2 vp st2 a2 tok rest Flow.brk (by decide) hp2]
      exact ⟨rfl, htr⟩
    | exit =>
      rw [parse_loop_stop env1 vp st1 a1 tok rest Flow.exit (by decide) hp1,
        parse_loop_stop env2 vp st2 a2 tok rest Flow.exit (by decide) hp2]
      exact ⟨rfl, htr⟩

/-- Claim C19: a command that is not found is treated by the control flow like
a command that ran and failed.  Let the command `x` fail resolution in one
world and resolve to `px` and return a non-zero status in the other, all else
being equal (every other command resolves alike, and every run of another
command ends alike).  Then for every token sequence the executor calls for the
commands other than `x` are the same in both worlds, in the same order, and the
loop is left the same way; whether `x` is followed by `;`, `&&` or `||`. -/
theorem not_found_is_treated_as_failure (x px : CStr) (env1 env2 : Env)
    (vp toks : List CStr)
    (hx1 : (get_Exe_Path env1 x vp).1 = none) (hx2 : (get_Exe_Path env2 x vp).1 = some px)
    (hfail : ∀ argv, argv.head? = some x →
      ∃ s, (run_Command env2 px argv).1 = some s ∧ s ≠ 0)
    (hres : ∀ w, w ≠ x → (get_Exe_Path env1 w vp).1 = (get_Exe_Path env2 w vp).1)
    (hchild : ∀ p argv, argv.head? ≠ some x → env1.child p argv = env2.child p argv) :
    execs_other_than x (parse_arguments env1 toks vp).1.trace
      = execs_other_than x (parse_arguments env2 toks vp).1.trace ∧
    (parse_arguments env1 toks vp).2 = (parse_arguments env2 toks vp).2 := by
  have hsim : same_but_for x init_state init_state := ⟨rfl, rfl, rfl, rfl, Iff.rfl, rfl⟩
  obtain ⟨hfl, htr⟩ := parse_loop_but x px env1 env2 vp hx1 hx2 hfail hres hchild toks
    init_state init_state hsim
  exact ⟨htr, hfl⟩

/-- Witness for claim C19: the program `a` missing in one world and leaving
with `1` in the other, on the tokens `a || b ; a && c ;`. -/
theorem not_found_is_treated_as_failure_witness :
    (get_Exe_Path demo_env_without_a "a".toList demo_paths).1 = none ∧
    (get_Exe_Path (demo_env 1) "a".toList demo_paths).1 = some "/bin/a".toList ∧
    (∀ argv : List CStr, argv.head? = some "a".toList →
      ∃ s, (run_Command (demo_env 1) "/bin/a".toList argv).1 = some s ∧ s ≠ 0) ∧
    (∀ w : CStr, w ≠ "a".toList →
      (get_Exe_Path demo_env_without_a w demo_paths).1
        = (get_Exe_Path (demo_env 1) w demo_paths).1) ∧
    (∀ (p : CStr) (argv : List CStr), argv.head? ≠ some "a".toList →
      demo_env_without_a.child p argv = (demo_env 1).child p argv) ∧
    (execs_other_than "a".toList (parse_arguments demo_env_without_a
        ["a".toList, "||".toList, "b".toList, ";".toList, "a".toList, "&&".toList,
          "c".toList, ";".toList] demo_paths).1.trace
      = execs_other_than "a".toList (parse_arguments (demo_env 1)
        ["a".toList, "||".toList, "b".toList, ";".toList, "a".toList, "&&".toList,
          "c".toList, ";".toList] demo_paths).1.trace ∧
    (parse_arguments demo_env_without_a
        ["a".toList, "||".toList, "b".toList, ";".toList, "a".toList, "&&".toList,
          "c".toList, ";".toList] demo_paths).2
      = (parse_arguments (demo_env 1)
        ["a".toList, "||".toList, "b".toList, ";".toList, "a".toList, "&&".toList,
          "c".toList, ";".toList] demo_paths).2) :=
  have hfail : ∀ argv : List CStr, argv.head? = some "a".toList →
      ∃ s, (run_Command (demo_env 1) "/bin/a".toList argv).1 = some s ∧ s ≠ 0 :=
    fun _ _ => ⟨1, rfl, by decide⟩
  have hres : ∀ w : CStr, w ≠ "a".toList →
      (get_Exe_Path demo_env_without_a w demo_paths).1
        = (get_Exe_Path (demo_env 1) w demo_paths).1 := by
    intro w hw
    have hw1 : ¬ w = ['a'] := hw
    simp [get_Exe_Path, search_paths, demo_env, demo_env_without_a, demo_paths, hw1]
  have hchild : ∀ (p : CStr) (argv : List CStr), argv.head? ≠ some "a".toList →
      demo_env_without_a.child p argv = (demo_env 1).child p argv :=
    fun _ _ _ => rfl
  ⟨by decide, by decide, hfail, hres, hchild,
    not_found_is_treated_as_failure "a".toList "/bin/a".toList demo_env_without_a (demo_env 1)
      demo_paths _ (by decide) (by decide) hfail hres hchild⟩

/-! ## Claim C4, amended -/

/-- After plain words read from a state with `cmd_pos = 0`, `command_lines`
holds exactly these words; the flag and the trace are untouched. -/
theorem words_then (env : Env) (vp : List CStr) (st : PState) (w : CStr) (ws rest : List CStr)
    (hpos : st.cmd_pos = 0) (hw : ∀ x ∈ w :: ws, is_op x = false) :
    ∃ st2, parse_loop env vp ((w :: ws) ++ rest) st = parse_loop env vp rest st2 ∧
      first_word st2.command_lines = some w ∧ argv_of st2.command_lines = w :: ws ∧
      st2.skip_next = st.skip_next ∧ st2.trace = st.trace := by
  refine ⟨_, parse_loop_words env vp rest ws w st hw (by rw [hpos]; exact Nat.zero_le _),
    ?_, ?_, rfl, rfl⟩
  · simp [hpos, first_word]
  · rw [hpos]
    simpa using argv_of_words (w :: ws)

/-- The branch `||` on a command that is found and returns `0`: the command is
run and the flag is set. -/
theorem step_or_success (env : Env) (vp : List CStr) (st : PState) (w p : CStr)
    (hfw : first_word st.command_lines = some w) (hs : st.skip_next = 0)
    (hg : (get_Exe_Path env w vp).1 = some p)
    (hr : (run_Command env p (argv_of st.command_lines)).1 = some 0) :
    ∃ st3, parse_step env vp st "||".toList = (st3, Flow.next) ∧ st3.cmd_pos = 0 ∧
      st3.skip_next = 1 ∧ execs st3.trace = execs st.trace ++ [(p, argv_of st.command_lines)] := by
  rw [parse_step_or, branch_or_ready env vp st w hfw hs]
  simp only [hg, hr]
  refine ⟨_, rfl, rfl, by simp, ?_⟩
  simp [execs_append, execs_get_Exe_Path, execs_run_Command]

/-- The branch `;` with the flag set: nothing is run and the flag is cleared. -/
theorem step_semi_skipped (env : Env) (vp : List CStr) (st : PState) (w : CStr)
    (hfw : first_word st.command_lines = some w) (hs : st.skip_next = 1) :
    ∃ st3, parse_step env vp st ";".toList = (st3, Flow.next) ∧ st3.cmd_pos = 0 ∧
      st3.skip_next = 0 ∧ execs st3.trace = execs st.trace := by
  rw [parse_step_semi, branch_semi_ready env vp st w hfw]
  cases hg : (get_Exe_Path env w vp).1 with
  | none =>
    refine ⟨_, rfl, rfl, by simp [hs], ?_⟩
    simp [execs_append, execs_get_Exe_Path]
  | some p =>
    simp only [hs, ne_eq, not_true_eq_false, if_false]
    refine ⟨_, rfl, rfl, rfl, ?_⟩
    simp [execs_append, execs_get_Exe_Path]

/-- The branch `&&` with the flag set: nothing is run, the flag is cleared and
the loop goes on. -/
theorem step_and_skipped (env : Env) (vp : List CStr) (st : PState) (w : CStr)
    (hfw : first_word st.command_lines = some w) (hs : st.skip_next = 1) :
    ∃ st3, parse_step env vp st "&&".toList = (st3, Flow.next) ∧ st3.cmd_pos = 0 ∧
      st3.skip_next = 0 ∧ execs st3.trace = execs st.trace := by
  rw [parse_step_and]
  unfold branch_and
  simp only [hfw]
  cases hg : (get_Exe_Path env w vp).1 with
  | none =>
    simp only [hs, if_true, ne_eq, not_true_eq_false, if_false]
    refine ⟨_, rfl, rfl, rfl, ?_⟩
    simp [execs_append, execs_get_Exe_Path]
  | some p =>
    simp only [hs, if_true, ne_eq, not_true_eq_false, and_false, if_false]
    refine ⟨_, rfl, rfl, rfl, ?_⟩
    simp [execs_append, execs_get_Exe_Path]

/-- The branch `||` with the flag set: nothing is resolved or run, and the flag
stays set. -/
theorem step_or_skipped (env : Env) (vp : List CStr) (st : PState) (w : CStr)
    (hfw : first_word st.command_lines = some w) (hs : st.skip_next = 1) :
    ∃ st3, parse_step env vp st "||".toList = (st3, Flow.next) ∧ st3.cmd_pos = 0 ∧
      st3.skip_next = 1 ∧ st3.trace = st.trace := by
  rw [parse_step_or]
  unfold branch_or
  simp only [hfw, hs, ne_eq, not_true_eq_false, if_false]
  cases hp : st.exe_path with
  | none => exact ⟨_, rfl, rfl, by simp, rfl⟩
  | some p => exact ⟨_, rfl, rfl, by simp, rfl⟩

/-- The executor calls of a final command `w ws.. ;` read from a state with
`cmd_pos = 0`: the call for the command when the flag is clear and the command
is found, none when the flag is set. -/
theorem last_command_execs (env : Env) (vp : List CStr) (st : PState) (w p : CStr)
    (ws : List CStr) (hpos : st.cmd_pos = 0) (hw : ∀ x ∈ w :: ws, is_op x = false)
    (hg : (get_Exe_Path env w vp).1 = some p) :
    execs (parse_loop env vp ((w :: ws) ++ [";".toList]) st).1.trace
      = execs st.trace ++ (if st.skip_next = 1 then [] else [(p, w :: ws)]) := by
  obtain ⟨st2, h1, hfw, hargv, hsk, htr⟩ := words_then env vp st w ws [";".toList] hpos hw
  rw [h1, parse_loop_single, parse_step_semi, branch_semi_ready env vp st2 w hfw]
  simp only [hg, hargv, hsk, htr]
  by_cases hk : st.skip_next = 1
  · simp [hk, execs_append, execs_get_Exe_Path]
  · simp only [ne_eq, hk, not_false_eq_true, if_true, if_false]
    cases hr : (run_Command env p (w :: ws)).1 <;>
      simp [execs_append, execs_get_Exe_Path, execs_run_Command]

theorem chain_or_success (env : Env) (vp : List CStr) (st : PState) (a1 pa : CStr)
    (as rest : List CStr) (hpos : st.cmd_pos = 0) (hskip : st.skip_next = 0)
    (ha : ∀ x ∈ a1 :: as, is_op x = false)
    (hga : (get_Exe_Path env a1 vp).1 = some pa)
    (hra : (run_Command env pa (a1 :: as)).1 = some 0) :
    ∃ s1, parse_loop env vp ((a1 :: as) ++ "||".toList :: rest) st = parse_loop env vp rest s1 ∧
      s1.cmd_pos = 0 ∧ s1.skip_next = 1 ∧
      execs s1.trace = execs st.trace ++ [(pa, a1 :: as)] := by
  obtain ⟨st2, h1, hfw, hargv, hsk, htr⟩ :=
    words_then env vp st a1 as ("||".toList :: rest) hpos ha
  obtain ⟨st3, h2, hp3, hs3, he3⟩ := step_or_success env vp st2 a1 pa hfw (hsk.trans hskip) hga
    (by rw [hargv]; exact hra)
  refine ⟨st3, ?_, hp3, hs3, ?_⟩
  · rw [h1, parse_loop_next env vp st2 st3 _ rest h2]
  · rw [he3, htr, hargv]

theorem chain_skipped_semi (env : Env) (vp : List CStr) (st : PState) (b1 : CStr)
    (bs rest : List CStr) (hpos : st.cmd_pos = 0) (hskip : st.skip_next = 1)
    (hb : ∀ x ∈ b1 :: bs, is_op x = false) :
    ∃ s2, parse_loop env vp ((b1 :: bs) ++ ";".toList :: rest) st = parse_loop env vp rest s2 ∧
      s2.cmd_pos = 0 ∧ s2.skip_next = 0 ∧ execs s2.trace = execs st.trace := by
  obtain ⟨st2, h1, hfw, -, hsk, htr⟩ := words_then env vp st b1 bs (";".toList :: rest) hpos hb
  obtain ⟨st3, h2, hp3, hs3, he3⟩ := step_semi_skipped env vp st2 b1 hfw (hsk.trans hskip)
  refine ⟨st3, ?_, hp3, hs3, ?_⟩
  · rw [h1, parse_loop_next env vp st2 st3 _ rest h2]
  · rw [he3, htr]

theorem chain_skipped_and (env : Env) (vp : List CStr) (st : PState) (b1 : CStr)
    (bs rest : List CStr) (hpos : st.cmd_pos = 0) (hskip : st.skip_next = 1)
    (hb : ∀ x ∈ b1 :: bs, is_op x = false) :
    ∃ s2, parse_loop env vp ((b1 :: bs) ++ "&&".toList :: rest) st = parse_loop env vp rest s2 ∧
      s2.cmd_pos = 0 ∧ s2.skip_next = 0 ∧ execs s2.trace = execs st.trace := by
  obtain ⟨st2, h1, hfw, -, hsk, htr⟩ := words_then env vp st b1 bs ("&&".toList :: rest) hpos hb
  obtain ⟨st3, h2, hp3, hs3, he3⟩ := step_and_skipped env vp st2 b1 hfw (hsk.trans hskip)
  refine ⟨st3, ?_, hp3, hs3, ?_⟩
  · rw [h1, parse_loop_next env vp st2 st3 _ rest h2]
  · rw [he3, htr]

theorem chain_skipped_or (env : Env) (vp : List CStr) (st : PState) (b1 : CStr)
    (bs rest : List CStr) (hpos : st.cmd_pos = 0) (hskip : st.skip_next = 1)
    (hb : ∀ x ∈ b1 :: bs, is_op x = false) :
    ∃ s2, parse_loop env vp ((b1 :: bs) ++ "||".toList :: rest) st = parse_loop env vp rest s2 ∧
      s2.cmd_pos = 0 ∧ s2.skip_next = 1 ∧ execs s2.trace = execs st.trace := by
  obtain ⟨st2, h1, hfw, -, hsk, htr⟩ := words_then env vp st b1 bs ("||".toList :: rest) hpos hb
  obtain ⟨st3, h2, hp3, hs3, he3⟩ := step_or_skipped env vp st2 b1 hfw (hsk.trans hskip)
  refine ⟨st3, ?_, hp3, hs3, ?_⟩
  · rw [h1, parse_loop_next env vp st2 st3 _ rest h2]
  · rw [he3, htr]

/-- Claim C4 as amended: from any state between two commands with the flag
clear, let `a ||` be read with `a` found and returning `0`.  Then the flag is
set and the next command `b` is not dispatched, whatever operator ends it.  When
`b` is ended by `;` or by `&&` the flag is clear afterwards, the loop goes on and
the command `c` after it is executed.  When `b` is ended by `||` the flag is
still set afterwards and the command `c` after it is skipped as well: on
`a || b || c ;` the executor is called for `a` only. -/
theorem skip_flag_skips_next_dispatch (env : Env) (vp : List CStr) (st : PState)
    (a1 : CStr) (as : List CStr) (b1 : CStr) (bs : List CStr) (c1 : CStr) (cs : List CStr)
    (pa pc : CStr) (hpos : st.cmd_pos = 0) (hskip : st.skip_next = 0)
    (ha : ∀ x ∈ a1 :: as, is_op x = false) (hb : ∀ x ∈ b1 :: bs, is_op x = false)
    (hc : ∀ x ∈ c1 :: cs, is_op x = false)
    (hga : (get_Exe_Path env a1 vp).1 = some pa)
    (hra : (run_Command env pa (a1 :: as)).1 = some 0)
    (hgc : (get_Exe_Path env c1 vp).1 = some pc) :
    ((parse_loop env vp ((a1 :: as) ++ ["||".toList]) st).2 = Flow.next ∧
      (parse_loop env vp ((a1 :: as) ++ ["||".toList]) st).1.skip_next = 1 ∧
      execs (parse_loop env vp ((a1 :: as) ++ ["||".toList]) st).1.trace
        = execs st.trace ++ [(pa, a1 :: as)]) ∧
    ((parse_loop env vp ((a1 :: as) ++ "||".toList :: ((b1 :: bs) ++ [";".toList])) st).2
        = Flow.next ∧
      (parse_loop env vp
        ((a1 :: as) ++ "||".toList :: ((b1 :: bs) ++ [";".toList])) st).1.skip_next = 0 ∧
      execs (parse_loop env vp
        ((a1 :: as) ++ "||".toList :: ((b1 :: bs) ++ [";".toList])) st).1.trace
        = execs st.trace ++ [(pa, a1 :: as)] ∧
      execs (parse_loop env vp ((a1 :: as) ++ "||".toList ::
        ((b1 :: bs) ++ ";".toList :: ((c1 :: cs) ++ [";".toList]))) st).1.trace
        = execs st.trace ++ [(pa, a1 :: as), (pc, c1 :: cs)]) ∧
    ((parse_loop env vp ((a1 :: as) ++ "||".toList :: ((b1 :: bs) ++ ["&&".toList])) st).2
        = Flow.next ∧
      (parse_loop env vp
        ((a1 :: as) ++ "||".toList :: ((b1 :: bs) ++ ["&&".toList])) st).1.skip_next = 0 ∧
      execs (parse_loop env vp
        ((a1 :: as) ++ "||".toList :: ((b1 :: bs) ++ ["&&".toList])) st).1.trace
        = execs st.trace ++ [(pa, a1 :: as)] ∧
      execs (parse_loop env vp ((a1 :: as) ++ "||".toList ::
        ((b1 :: bs) ++ "&&".toList :: ((c1 :: cs) ++ [";".toList]))) st).1.trace
        = execs st.trace ++ [(pa, a1 :: as), (pc, c1 :: cs)]) ∧
    ((parse_loop env vp ((a1 :: as) ++ "||".toList :: ((b1 :: bs) ++ ["||".toList])) st).2
        = Flow.next ∧
      (parse_loop env vp
        ((a1 :: as) ++ "||".toList :: ((b1 :: bs) ++ ["||".toList])) st).1.skip_next = 1 ∧
      execs (parse_loop env vp
        ((a1 :: as) ++ "||".toList :: ((b1 :: bs) ++ ["||".toList])) st).1.trace
        = execs st.trace ++ [(pa, a1 :: as)] ∧
      execs (parse_loop env vp ((a1 :: as) ++ "||".toList ::
        ((b1 :: bs) ++ "||".toList :: ((c1 :: cs) ++ [";".toList]))) st).1.trace
        = execs st.trace ++ [(pa, a1 :: as)]) := by
  refine ⟨?_, ?_, ?_, ?_⟩
  · obtain ⟨s1, h1, -, hs1, he1⟩ := chain_or_success env vp st a1 pa as [] hpos hskip ha hga hra
    rw [h1]
    exact ⟨rfl, hs1, he1⟩
  · refine ⟨?_, ?_, ?_, ?_⟩
    all_goals
      obtain ⟨s1, h1, hp1, hs1, he1⟩ := chain_or_success env vp st a1 pa as _ hpos hskip ha hga hra
      rw [h1]
      obtain ⟨s2, h2, hp2, hs2, he2⟩ := chain_skipped_semi env vp s1 b1 bs _ hp1 hs1 hb
    · rw [h2]; rfl
    · rw [h2]; exact hs2
    · rw [h2]; show execs s2.trace = _; rw [he2, he1]
    · rw [h2, last_command_execs env vp s2 c1 pc cs hp2 hc hgc, he2, he1]
      simp [hs2]
  · refine ⟨?_, ?_, ?_, ?_⟩
    all_goals
      obtain ⟨s1, h1, hp1, hs1, he1⟩ := chain_or_success env vp st a1 pa as _ hpos hskip ha hga hra
      rw [h1]
      obtain ⟨s2, h2, hp2, hs2, he2⟩ := chain_skipped_and env vp s1 b1 bs _ hp1 hs1 hb
    · rw [h2]; rfl
    · rw [h2]; exact hs2
    · rw [h2]; show execs s2.trace = _; rw [he2, he1]
    · rw [h2, last_command_execs env vp s2 c1 pc cs hp2 hc hgc, he2, he1]
      simp [hs2]
  · refine ⟨?_, ?_, ?_, ?_⟩
    all_goals
      obtain ⟨s1, h1, hp1, hs1, he1⟩ := chain_or_success env vp st a1 pa as _ hpos hskip ha hga hra
      rw [h1]
      obtain ⟨s2, h2, hp2, hs2, he2⟩ := chain_skipped_or env vp s1 b1 bs _ hp1 hs1 hb
    · rw [h2]; rfl
    · rw [h2]; exact hs2
    · rw [h2]; show execs s2.trace = _; rw [he2, he1]
    · rw [h2, last_command_execs env vp s2 c1 pc cs hp2 hc hgc, he2, he1]
      simp [hs2]

/-- Witness for the amended claim C4: from the initial state in the concrete
environment, with `a` succeeding, `a || b ; c ;` runs `a` and `c`, and
`a || b || c ;` runs `a` only. -/
theorem skip_flag_skips_next_dispatch_witness :
    init_state.cmd_pos = 0 ∧ init_state.skip_next = 0 ∧
    (∀ x ∈ ["a".toList], is_op x = false) ∧ (∀ x ∈ ["b".toList], is_op x = false) ∧
    (∀ x ∈ ["c".toList], is_op x = false) ∧
    (get_Exe_Path (demo_env 0) "a".toList demo_paths).1 = some "/bin/a".toList ∧
    (run_Command (demo_env 0) "/bin/a".toList ["a".toList]).1 = some 0 ∧
    (get_Exe_Path (demo_env 0) "c".toList demo_paths).1 = some "/bin/c".toList ∧
    execs (parse_loop (demo_env 0) demo_paths (["a".toList] ++ "||".toList ::
        (["b".toList] ++ ";".toList :: (["c".toList] ++ [";".toList]))) init_state).1.trace
      = execs init_state.trace
        ++ [("/bin/a".toList, ["a".toList]), ("/bin/c".toList, ["c".toList])] ∧
    execs (parse_loop (demo_env 0) demo_paths (["a".toList] ++ "||".toList ::
        (["b".toList] ++ "||".toList :: (["c".toList] ++ [";".toList]))) init_state).1.trace
      = execs init_state.trace ++ [("/bin/a".toList, ["a".toList])] :=
  ⟨rfl, rfl, by decide, by decide, by decide, by decide, by decide, by decide,
    (skip_flag_skips_next_dispatch (demo_env 0) demo_paths init_state "a".toList []
      "b".toList [] "c".toList [] "/bin/a".toList "/bin/c".toList rfl rfl (by decide)
      (by decide) (by decide) (by decide) (by decide) (by decide)).2.1.2.2.2,
    (skip_flag_skips_next_dispatch (demo_env 0) demo_paths init_state "a".toList []
      "b".toList [] "c".toList [] "/bin/a".toList "/bin/c".toList rfl rfl (by decide)
      (by decide) (by decide) (by decide) (by decide) (by decide)).2.2.2.2.2.2⟩

end Shell
